import Mathlib

/-! Event catalog of the registry (`registry/eventCatalog.go`).

A shallow embedding of the event catalog: the entry type, the catalog map with
`Add`, `Update` and `Remove`, the helpers `matchGroup` and `findLocal`, and the
dispatch selector `Next`.

Conventions of the embedding

* A Go `map[string][]EventEntry` is an association list with first-match lookup
  (`mapIndex`, the Go expression `m[k]`, which yields the nil slice for an absent
  key) and replace-or-append assignment (`mapAssign`, the Go statement `m[k] = v`).
* A Go slice is a `List`; the nil slice and the empty slice are both `[]`, except for
  the `groups` argument of `Next`, where `none` is the nil slice.
* A run-time panic is the `Except.error` result.
* The order in which `range` visits a map is not fixed by Go; it is supplied by
  `GoRuntime.rangeOrder`, any permutation of the map's pairs.
* The strategy is an external collaborator with private state; its state is passed
  explicitly.
-/

namespace Registry

/-! ## Data model -/

/-- Modelled from the spec: `service.Event` is declared outside `registry/`; the
catalog uses its accessors `Name()`, `ServiceName()`, `Group()` and `Handler()`.
The handler is kept as an identifier of the function value. -/
structure Event where
  name : String
  serviceName : String
  group : String
  handler : Nat
deriving DecidableEq

/-- The struct `EventEntry`: target node, event definition, locality. -/
structure EventEntry where
  targetNodeID : String
  event : Event
  isLocal : Bool
deriving DecidableEq

/-- The method `TargetNodeID` (value receiver). -/
def EventEntry.TargetNodeID (eventEntry : EventEntry) : String :=
  eventEntry.targetNodeID

/-- The method `IsLocal` (pointer receiver). -/
def EventEntry.IsLocal (eventEntry : EventEntry) : Bool :=
  eventEntry.isLocal

/-- A Go `map[string][]EventEntry`. -/
abbrev GoMap := List (String × List EventEntry)

/-- The Go expression `m[key]`: the stored slice, or the nil slice when absent. -/
def mapIndex : GoMap → String → List EventEntry
  | [], _ => []
  | (k, v) :: rest, key => if k = key then v else mapIndex rest key

/-- The Go statement `m[key] = val`. -/
def mapAssign : GoMap → String → List EventEntry → GoMap
  | [], key, val => [(key, val)]
  | (k, v) :: rest, key, val =>
    if k = key then (k, val) :: rest else (k, v) :: mapAssign rest key val

/-- The struct `EventCatalog`; the mutex and the logger carry no catalog data. -/
structure EventCatalog where
  events : GoMap

/-- The constructor `CreateEventCatalog`: an empty map. -/
def CreateEventCatalog : EventCatalog :=
  ⟨[]⟩

/-! ## Mutation operations -/

/-- The method `Add`: append a new entry to the slice stored under the event name. -/
def EventCatalog.Add (eventCatalog : EventCatalog) (nodeID : String) (event : Event)
    (isLocal : Bool) : EventCatalog :=
  let entry : EventEntry := ⟨nodeID, event, isLocal⟩
  let name := event.name
  ⟨mapAssign eventCatalog.events name (mapIndex eventCatalog.events name ++ [entry])⟩

/-- The method `Update`: its body is empty. -/
def EventCatalog.Update (eventCatalog : EventCatalog) (_nodeID : String) (_name : String)
    (_updates : List (String × String)) : EventCatalog :=
  eventCatalog

/-- The loop of `Remove`: copy to `newList` every entry of another node. -/
def removeLoop (nodeID : String) : List EventEntry → List EventEntry → List EventEntry
  | [], newList => newList
  | event :: rest, newList =>
    if event.targetNodeID ≠ nodeID then removeLoop nodeID rest (newList ++ [event])
    else removeLoop nodeID rest newList

/-- The method `Remove`. -/
def EventCatalog.Remove (eventCatalog : EventCatalog) (nodeID : String) (name : String) :
    EventCatalog :=
  let options := mapIndex eventCatalog.events name
  ⟨mapAssign eventCatalog.events name (removeLoop nodeID options [])⟩

/-- One call of a mutation operation. -/
inductive CatalogOp where
  | add (nodeID : String) (event : Event) (isLocal : Bool)
  | update (nodeID : String) (name : String) (updates : List (String × String))
  | remove (nodeID : String) (name : String)
deriving DecidableEq

/-- Perform one mutation call. -/
def EventCatalog.apply (eventCatalog : EventCatalog) : CatalogOp → EventCatalog
  | .add nodeID event isLocal => eventCatalog.Add nodeID event isLocal
  | .update nodeID name updates => eventCatalog.Update nodeID name updates
  | .remove nodeID name => eventCatalog.Remove nodeID name

/-- Perform a sequence of mutation calls, first call first. -/
def EventCatalog.run (eventCatalog : EventCatalog) : List CatalogOp → EventCatalog
  | [] => eventCatalog
  | op :: rest => (eventCatalog.apply op).run rest

/-! ## Filters -/

/-- The loop of `matchGroup` over a non-empty filter. -/
def matchGroupLoop (event : Event) : List String → Bool
  | [] => false
  | group :: rest => if event.group = group then true else matchGroupLoop event rest

/-- The function `matchGroup`; `none` is the nil slice. -/
def matchGroup (event : Event) (groups : Option (List String)) : Bool :=
  match groups with
  | none => true
  | some [] => true
  | some (group :: rest) => matchGroupLoop event (group :: rest)

/-- The function `findLocal`: the first local entry, or nil. The returned pointer
addresses a copy of the entry, so the result is the entry's value. -/
def findLocal : List EventEntry → Option EventEntry
  | [] => none
  | item :: rest => if item.IsLocal then some item else findLocal rest

/-- The first loop of `Next`: partition the surviving entries by group label. -/
def groupLoop (groups : Option (List String)) (localOnly : Bool) :
    List EventEntry → GoMap → GoMap
  | [], entryGroups => entryGroups
  | entry :: rest, entryGroups =>
    if localOnly && !entry.isLocal then groupLoop groups localOnly rest entryGroups
    else if matchGroup entry.event groups then
      groupLoop groups localOnly rest
        (mapAssign entryGroups entry.event.group
          (mapIndex entryGroups entry.event.group ++ [entry]))
    else groupLoop groups localOnly rest entryGroups

/-! ## Strategy and run-time parameters -/

/-- A value of the interface type `strategy.Selector`, by dynamic type: an
`EventEntry`, a `*EventEntry` (the variable it addresses and that variable's
content when `Select` runs), or a value of another implementation. -/
inductive Selector where
  | entryValue (entry : EventEntry)
  | entryPointer (address : Nat) (pointee : EventEntry)
  | other (targetNodeID : String)
deriving DecidableEq

/-- Modelled from the spec: the interface `strategy.Strategy` is declared outside
`registry/`; it exposes `Select(candidates) -> candidate-or-none`. `Select` may use
and change private state `σ`; a selection is one of the candidates handed in. -/
structure Strategy (σ : Type) where
  Select : σ → List Selector → Option Selector × σ
  select_mem : ∀ s cs c, (Select s cs).1 = some c → c ∈ cs

/-- The scope of a `for ... range` variable: one variable for the whole loop
(language versions before 1.22) or a fresh variable per iteration (1.22 on). The
language version is fixed by the module file, which is not part of `registry/`. -/
inductive LoopVar where
  | perLoop
  | perIteration
deriving DecidableEq

/-- What the Go run time and language version leave open: the scope of loop
variables and the order in which `range` visits the pairs of a map. -/
structure GoRuntime where
  loopVar : LoopVar
  rangeOrder : GoMap → GoMap
  rangeOrder_perm : ∀ m, (rangeOrder m).Perm m

/-- A run-time panic. -/
inductive GoPanic where
  | interfaceConversion
deriving DecidableEq

/-! ## The dispatch selector -/

/-- The loop `nodes[index] = &entry`, per-iteration variables: candidate `index`
addresses variable `index`, which holds the entry of that iteration. -/
def candidatesFrom : Nat → List EventEntry → List Selector
  | _, [] => []
  | index, entry :: rest => Selector.entryPointer index entry :: candidatesFrom (index + 1) rest

/-- The loop `nodes[index] = &entry` as seen by `Select`. With one variable per loop
every candidate addresses that variable, which holds the last entry once the loop
has finished. -/
def candidates (loopVar : LoopVar) (entries : List EventEntry) : List Selector :=
  match loopVar with
  | .perLoop =>
    match entries.getLast? with
    | none => []
    | some last => entries.map (fun _ => Selector.entryPointer 0 last)
  | .perIteration => candidatesFrom 0 entries

/-- The type assertion `(*selected).(EventEntry)`: it succeeds only when the dynamic
type is `EventEntry`, and panics otherwise. -/
def assertEventEntry : Selector → Except GoPanic EventEntry
  | .entryValue entry => .ok entry
  | .entryPointer _ _ => .error .interfaceConversion
  | .other _ => .error .interfaceConversion

/-- The body of the second loop of `Next` for one bucket: the representative
appended to `result`, if any, and the strategy state afterwards. -/
def selectBucket {σ : Type} (loopVar : LoopVar) (stg : Strategy σ) (s : σ)
    (entries : List EventEntry) : Except GoPanic (Option EventEntry × σ) :=
  match findLocal entries with
  | some loc => .ok (some loc, s)
  | none =>
    if entries.length = 1 then .ok (entries.head?, s)
    else if entries.length > 1 then
      match stg.Select s (candidates loopVar entries) with
      | (none, s') => .ok (none, s')
      | (some selected, s') =>
        match assertEventEntry selected with
        | .ok entry => .ok (some entry, s')
        | .error p => .error p
    else .ok (none, s)

/-- The second loop of `Next` over the buckets in the order visited. -/
def nextLoop {σ : Type} (loopVar : LoopVar) (stg : Strategy σ) :
    GoMap → σ → List EventEntry → Except GoPanic (List EventEntry × σ)
  | [], s, result => .ok (result, s)
  | (_, entries) :: rest, s, result =>
    match selectBucket loopVar stg s entries with
    | .error p => .error p
    | .ok (none, s') => nextLoop loopVar stg rest s' result
    | .ok (some entry, s') => nextLoop loopVar stg rest s' (result ++ [entry])

/-- The buckets `entryGroups` built by `Next` from the catalog. -/
def EventCatalog.entryGroups (eventCatalog : EventCatalog) (name : String)
    (groups : Option (List String)) (localOnly : Bool) : GoMap :=
  groupLoop groups localOnly (mapIndex eventCatalog.events name) []

/-- The method `Next`. The result lists the values of the returned pointers; the
strategy state after the call is not part of the result. -/
def EventCatalog.Next {σ : Type} (eventCatalog : EventCatalog) (rt : GoRuntime)
    (name : String) (stg : Strategy σ) (s : σ) (groups : Option (List String))
    (localOnly : Bool) : Except GoPanic (List EventEntry) :=
  match nextLoop rt.loopVar stg
      (rt.rangeOrder (eventCatalog.entryGroups name groups localOnly)) s [] with
  | .error p => .error p
  | .ok (result, _) => .ok result

/-! ## Concrete strategies and run times -/

/-- A strategy that always returns no selection. -/
def noSelection : Strategy Unit :=
  ⟨fun s _ => (none, s), by intro s cs c h; simp at h⟩

/-- A strategy that returns the first candidate. -/
def firstCandidate : Strategy Unit :=
  ⟨fun s cs => (cs.head?, s), by
    intro s cs c h
    cases cs with
    | nil => simp at h
    | cons a t => simp at h; simp [h]⟩

/-- A round-robin strategy: its state counts the calls. -/
def roundRobin : Strategy Nat :=
  ⟨fun s cs => (cs.get? (s % cs.length), s + 1), by
    intro s cs c h
    exact List.get?_mem h⟩

/-- A run time with one variable per loop that visits maps in insertion order. -/
def insertionOrder : GoRuntime :=
  ⟨.perLoop, fun m => m, fun m => List.Perm.refl m⟩

/-- A run time with one variable per iteration that visits maps in reverse order. -/
def reverseOrder : GoRuntime :=
  ⟨.perIteration, fun m => m.reverse, fun m => List.reverse_perm m⟩

/-! ## Derived notions used to state the properties -/

/-- The keys of a map. -/
def mapKeys (m : GoMap) : List String :=
  m.map Prod.fst

/-- The two filter tests of the first loop of `Next` for one entry: it is not
skipped by `localOnly` and it passes `matchGroup`. -/
def survives (groups : Option (List String)) (localOnly : Bool) (entry : EventEntry) : Bool :=
  !(localOnly && !entry.isLocal) && matchGroup entry.event groups

/-- The representative that the second loop of `Next` takes without consulting the
strategy: the first local entry, else the only entry of a one-entry bucket. -/
def directPick (entries : List EventEntry) : Option EventEntry :=
  match findLocal entries with
  | some loc => some loc
  | none => if entries.length = 1 then entries.head? else none

/-- The bucket `entryGroups[g]` that `Next` builds for group `g`. -/
abbrev EventCatalog.bucket (eventCatalog : EventCatalog) (name : String)
    (groups : Option (List String)) (localOnly : Bool) (g : String) : List EventEntry :=
  mapIndex (eventCatalog.entryGroups name groups localOnly) g

/-! ## Example registrations -/

/-- An event definition of "order.created" in group "billing". -/
def orderBilling : Event :=
  ⟨"order.created", "billing-service", "billing", 1⟩

/-- An event definition of "order.created" in group "shipping". -/
def orderShipping : Event :=
  ⟨"order.created", "shipping-service", "shipping", 2⟩

/-- Billing local on node A; shipping remote on nodes B and C. -/
def localAndRemotePair : EventCatalog :=
  ((CreateEventCatalog.Add "A" orderBilling true).Add "B" orderShipping false).Add
    "C" orderShipping false

/-- Shipping remote on nodes B and C. -/
def remotePair : EventCatalog :=
  (CreateEventCatalog.Add "B" orderShipping false).Add "C" orderShipping false

/-- Billing remote on node A; shipping remote on nodes B and C. -/
def remoteSingleAndPair : EventCatalog :=
  ((CreateEventCatalog.Add "A" orderBilling false).Add "B" orderShipping false).Add
    "C" orderShipping false

/-- Billing on node A and shipping on node B, with the given locality flags. -/
def billingAndShipping (la lb : Bool) : EventCatalog :=
  (CreateEventCatalog.Add "A" orderBilling la).Add "B" orderShipping lb

/-- Billing remote on nodes D and A; shipping remote on nodes B and C. -/
def remotePairs : EventCatalog :=
  (((CreateEventCatalog.Add "D" orderBilling false).Add "A" orderBilling false).Add
    "B" orderShipping false).Add "C" orderShipping false

/-! ## Candidates as the strategy sees them -/

/-- The interface method `TargetNodeID` of a `strategy.Selector`, by dynamic type;
through a pointer it reads the variable addressed. -/
def Selector.TargetNodeID : Selector → String
  | .entryValue entry => entry.TargetNodeID
  | .entryPointer _ pointee => pointee.TargetNodeID
  | .other targetNodeID => targetNodeID

/-- The entry a candidate stands for when `Select` runs, if it stands for one. -/
def Selector.denotes : Selector → Option EventEntry
  | .entryValue entry => some entry
  | .entryPointer _ pointee => some pointee
  | .other _ => none

/-- A strategy that makes no selection when some candidate targets `node`, and
returns the first candidate otherwise. -/
def selectUnlessNode (node : String) : Strategy Unit :=
  ⟨fun s cs =>
      (if cs.any (fun c => decide (c.TargetNodeID = node)) then none else cs.head?, s), by
    intro s cs c h
    simp only at h
    split at h
    · cases h
    · exact List.mem_of_mem_head? h⟩

/-- A strategy that makes no selection and records every candidate list it is
handed. -/
def recorder : Strategy (List (List Selector)) :=
  ⟨fun s cs => (none, s ++ [cs]), by intro s cs c h; simp at h⟩

/-! ## `Next` as a step on the catalog -/

/-- The Go expression `m[key]` as a step on the map: the value read and the map
afterwards. Indexing a Go map does not insert an absent key. -/
def mapLoad (m : GoMap) (key : String) : List EventEntry × GoMap :=
  (mapIndex m key, m)

/-- The method `Next` as a step on the catalog: its outcome and the catalog
afterwards. The body touches the catalog only by the read `eventCatalog.events[name]`;
`entryGroups`, `result` and `nodes` are locals holding copies of the entries. -/
def EventCatalog.NextStep {σ : Type} (eventCatalog : EventCatalog) (rt : GoRuntime)
    (name : String) (stg : Strategy σ) (s : σ) (groups : Option (List String))
    (localOnly : Bool) : Except GoPanic (List EventEntry) × EventCatalog :=
  let loaded := mapLoad eventCatalog.events name
  let entryGroups := groupLoop groups localOnly loaded.1 []
  let outcome : Except GoPanic (List EventEntry) :=
    match nextLoop rt.loopVar stg (rt.rangeOrder entryGroups) s [] with
    | .error p => .error p
    | .ok (result, _) => .ok result
  (outcome, ⟨loaded.2⟩)

/-- The registry key invariant as a check: every entry of every stored pair has the
pair's key as its event name. -/
def keyInvariant (eventCatalog : EventCatalog) : Bool :=
  eventCatalog.events.all (fun p => p.2.all (fun e => decide (e.event.name = p.1)))

/-! ## Local invocation -/

/-- Modelled from the spec: `moleculer.BrokerContext` is declared outside
`registry/`; it carries the event name, the payload and a logger. `isContext` tells
whether its dynamic type also implements `moleculer.Context`, which the assertion
`context.(moleculer.Context)` requires. -/
structure BrokerContext where
  eventName : String
  payload : String
  isContext : Bool
deriving DecidableEq

/-- The argument of a `panic`: the nil interface value, or a value with its detail. -/
inductive PanicValue where
  | nilValue
  | value (detail : String)
deriving DecidableEq

/-- What `recover` yields for `panic(nil)`: nil (language versions before 1.21) or a
`*runtime.PanicNilError` (1.21 on). The language version is fixed by the module
file, which is not part of `registry/`. -/
inductive NilPanic where
  | recoveredAsNil
  | panicNilError
deriving DecidableEq

/-- The value `recover()` returns in a deferred call while the goroutine panics with
the given argument; `none` is nil. -/
def recoverValue (nilPanic : NilPanic) : PanicValue → Option String
  | .value detail => some detail
  | .nilValue =>
    match nilPanic with
    | .recoveredAsNil => none
    | .panicNilError => some "panic called with nil argument (obsolete)"

/-- How a call of a handler ends. -/
inductive HandlerOutcome where
  | returned
  | panicked (v : PanicValue)
deriving DecidableEq

/-- Modelled from the spec: the handler capability of `service.Event` is declared
outside `registry/`; each handler function value, named by its identifier, is given
by how its call on a context ends. -/
abbrev Handlers := Nat → BrokerContext → HandlerOutcome

/-- A line written to the logger. -/
inductive LogLine where
  | debug (text : String) (eventName : String)
  | error (eventName : String) (detail : String)
deriving DecidableEq

/-- The function `catchEventError`, run as a deferred call: `panicking` is the
argument of the panic in progress, if any. It returns the lines logged and the panic
still in progress afterwards; a call of `recover` while panicking stops the panic. -/
def catchEventError (nilPanic : NilPanic) (context : BrokerContext)
    (panicking : Option PanicValue) : List LogLine × Option PanicValue :=
  match panicking with
  | none => ([], none)
  | some v =>
    match recoverValue nilPanic v with
    | some err => ([LogLine.error context.eventName err], none)
    | none => ([], none)

/-- How a function returns to its caller after its deferred calls have run. -/
def exitAfterDefer : Option PanicValue → Except PanicValue Unit
  | none => .ok ()
  | some v => .error v

/-- The method `emitLocalEvent`: the lines logged and how the call ends. -/
def emitLocalEvent (nilPanic : NilPanic) (handlers : Handlers) (eventEntry : EventEntry)
    (context : BrokerContext) : List LogLine × Except PanicValue Unit :=
  let before := [LogLine.debug "Before invoking local event: " context.eventName]
  let outcome : HandlerOutcome :=
    if context.isContext then handlers eventEntry.event.handler context
    else .panicked (.value "interface conversion")
  match outcome with
  | .returned =>
    let deferred := catchEventError nilPanic context none
    (before ++ [LogLine.debug "After invoking local event: " context.eventName] ++
      deferred.1, exitAfterDefer deferred.2)
  | .panicked v =>
    let deferred := catchEventError nilPanic context (some v)
    (before ++ deferred.1, exitAfterDefer deferred.2)

/-- Handlers for the examples: handler 1 returns, handler 2 panics with a value,
every other handler calls `panic(nil)`. -/
def exampleHandlers : Handlers :=
  fun handler _ =>
    if handler = 1 then .returned
    else if handler = 2 then .panicked (.value "shipping failed")
    else .panicked .nilValue

/-- An event definition whose handler calls `panic(nil)`. -/
def orderAudit : Event :=
  ⟨"order.created", "audit-service", "audit", 3⟩

/-- A context of an emission of "order.created". -/
def orderContext : BrokerContext :=
  ⟨"order.created", "order 17", true⟩

/-! ## Synchronisation steps of the catalog methods -/

/-- A step of a method body that matters for mutual exclusion: a call of
`mutex.Lock`, a call of `mutex.Unlock`, or a read or write of `events[key]`. -/
inductive SyncStep where
  | lock
  | unlock
  | read (key : String)
  | write (key : String)
deriving DecidableEq

/-- An access to the `events` map, with whether the mutex is held at that moment. -/
structure MapAccess where
  isWrite : Bool
  key : String
  mutexHeld : Bool
deriving DecidableEq

/-- Run the steps of a method body from the given mutex state; list the accesses. -/
def runSync : Bool → List SyncStep → List MapAccess
  | _, [] => []
  | _, .lock :: rest => runSync true rest
  | _, .unlock :: rest => runSync false rest
  | held, .read key :: rest => ⟨false, key, held⟩ :: runSync held rest
  | held, .write key :: rest => ⟨true, key, held⟩ :: runSync held rest

/-- The steps of `Add`: line 67 reads `events[name]` and writes `events[name]`. -/
def AddSteps (event : Event) : List SyncStep :=
  [.read event.name, .write event.name]

/-- The steps of `Update`: none. -/
def UpdateSteps : List SyncStep :=
  []

/-- The steps of `Remove`: line 76 reads `events[name]`, line 82 writes it. -/
def RemoveSteps (name : String) : List SyncStep :=
  [.read name, .write name]

/-- The steps of `Next`: line 108 reads `events[name]`. -/
def NextSteps (name : String) : List SyncStep :=
  [.read name]

/-- The mutex state of a catalog returned by `CreateEventCatalog`: `&sync.Mutex{}`
is an unlocked mutex. -/
def createdMutexHeld : Bool :=
  false

/-- The lock discipline: every access is made with the mutex held. -/
def allGuarded (accesses : List MapAccess) : Bool :=
  accesses.all (fun a => a.mutexHeld)

/-! ## Maps -/

theorem mapIndex_mapAssign_same (m : GoMap) (k : String) (v : List EventEntry) :
    mapIndex (mapAssign m k v) k = v := by
  induction m with
  | nil => simp [mapAssign, mapIndex]
  | cons p rest ih =>
    obtain ⟨k', v'⟩ := p
    by_cases h : k' = k
    · simp [mapAssign, mapIndex, h]
    · simp [mapAssign, mapIndex, h, ih]

theorem mapIndex_mapAssign_other (m : GoMap) (k k' : String) (v : List EventEntry)
    (hk : k' ≠ k) : mapIndex (mapAssign m k v) k' = mapIndex m k' := by
  induction m with
  | nil =>
    have : ¬ k = k' := fun h => hk h.symm
    simp [mapAssign, mapIndex, this]
  | cons p rest ih =>
    obtain ⟨k0, v0⟩ := p
    by_cases h : k0 = k
    · subst h
      have : ¬ k0 = k' := fun h => hk h.symm
      simp [mapAssign, mapIndex, this]
    · by_cases h' : k0 = k'
      · subst h'
        simp [mapAssign, mapIndex, h]
      · simp [mapAssign, mapIndex, h, h', ih]

theorem mem_mapKeys_mapAssign (m : GoMap) (k x : String) (v : List EventEntry) :
    x ∈ mapKeys (mapAssign m k v) ↔ x ∈ mapKeys m ∨ x = k := by
  induction m with
  | nil => simp [mapAssign, mapKeys]
  | cons p rest ih =>
    obtain ⟨k0, v0⟩ := p
    by_cases h : k0 = k
    · subst h
      simp only [mapAssign, if_true, mapKeys, List.map_cons, List.mem_cons]
      tauto
    · have ih' : x ∈ List.map Prod.fst (mapAssign rest k v) ↔
          x ∈ List.map Prod.fst rest ∨ x = k := ih
      simp only [mapAssign, h, if_false, mapKeys, List.map_cons, List.mem_cons, ih']
      tauto

theorem nodup_mapKeys_mapAssign (m : GoMap) (k : String) (v : List EventEntry)
    (hm : (mapKeys m).Nodup) : (mapKeys (mapAssign m k v)).Nodup := by
  induction m with
  | nil => simp [mapAssign, mapKeys]
  | cons p rest ih =>
    obtain ⟨k0, v0⟩ := p
    have hm' : k0 ∉ mapKeys rest ∧ (mapKeys rest).Nodup := by
      simpa [mapKeys] using hm
    by_cases h : k0 = k
    · subst h
      simpa [mapAssign, mapKeys] using hm
    · have hnot : k0 ∉ mapKeys (mapAssign rest k v) := by
        rw [mem_mapKeys_mapAssign]
        rintro (h1 | h1)
        · exact hm'.1 h1
        · exact h h1
      have := ih hm'.2
      simp only [mapAssign, h, if_false]
      exact List.nodup_cons.mpr ⟨hnot, this⟩

theorem mapIndex_eq_nil_of_not_mem (m : GoMap) (k : String) (hk : k ∉ mapKeys m) :
    mapIndex m k = [] := by
  induction m with
  | nil => rfl
  | cons p rest ih =>
    obtain ⟨k0, v0⟩ := p
    have h1 : ¬ k0 = k := by
      intro h
      apply hk
      simp [mapKeys, h]
    have h2 : k ∉ mapKeys rest := by
      intro h
      apply hk
      simp only [mapKeys, List.map_cons, List.mem_cons]
      exact Or.inr h
    simp [mapIndex, h1, ih h2]

theorem mapIndex_of_mem (m : GoMap) (k : String) (v : List EventEntry)
    (hm : (mapKeys m).Nodup) (hmem : (k, v) ∈ m) : mapIndex m k = v := by
  induction m with
  | nil => simp at hmem
  | cons p rest ih =>
    obtain ⟨k0, v0⟩ := p
    have hm' : k0 ∉ mapKeys rest ∧ (mapKeys rest).Nodup := by
      simpa [mapKeys] using hm
    rcases List.mem_cons.mp hmem with h | h
    · cases h
      simp [mapIndex]
    · have hk : ¬ k0 = k := by
        intro h0
        apply hm'.1
        subst h0
        exact List.mem_map_of_mem Prod.fst h
      simp [mapIndex, hk, ih hm'.2 h]

theorem mem_of_mapIndex_ne_nil (m : GoMap) (k : String) (h : mapIndex m k ≠ []) :
    (k, mapIndex m k) ∈ m := by
  induction m with
  | nil => simp [mapIndex] at h
  | cons p rest ih =>
    obtain ⟨k0, v0⟩ := p
    by_cases hk : k0 = k
    · subst hk
      simp [mapIndex]
    · simp only [mapIndex, hk, if_false] at h ⊢
      exact List.mem_cons_of_mem _ (ih h)

theorem mapIndex_perm (m1 m2 : GoMap) (k : String) (hp : m1.Perm m2)
    (hm : (mapKeys m2).Nodup) : mapIndex m1 k = mapIndex m2 k := by
  have hm1 : (mapKeys m1).Nodup := (hp.map Prod.fst).nodup_iff.mpr hm
  by_cases h2 : mapIndex m2 k = []
  · by_cases h1 : mapIndex m1 k = []
    · rw [h1, h2]
    · have hmem := hp.mem_iff.mp (mem_of_mapIndex_ne_nil m1 k h1)
      have := mapIndex_of_mem m2 k _ hm hmem
      exact this.symm
  · have hmem := hp.mem_iff.mpr (mem_of_mapIndex_ne_nil m2 k h2)
    exact mapIndex_of_mem m1 k _ hm1 hmem

/-! ## `Remove`, `matchGroup`, `findLocal` -/

theorem removeLoop_eq_filter (nodeID : String) (options newList : List EventEntry) :
    removeLoop nodeID options newList =
      newList ++ options.filter (fun e => decide (e.targetNodeID ≠ nodeID)) := by
  induction options generalizing newList with
  | nil => simp [removeLoop]
  | cons e rest ih =>
    by_cases h : e.targetNodeID = nodeID
    · simp [removeLoop, h, ih]
    · simp [removeLoop, h, ih]

theorem matchGroupLoop_iff (event : Event) (gs : List String) :
    matchGroupLoop event gs = true ↔ event.group ∈ gs := by
  induction gs with
  | nil => simp [matchGroupLoop]
  | cons g rest ih =>
    by_cases h : event.group = g
    · simp [matchGroupLoop, h]
    · simp [matchGroupLoop, h, ih]

theorem findLocal_some_iff (entries : List EventEntry) (x : EventEntry) :
    findLocal entries = some x ↔
      ∃ before after, entries = before ++ x :: after ∧ x.isLocal = true ∧
        ∀ e ∈ before, e.isLocal = false := by
  induction entries with
  | nil => simp [findLocal]
  | cons e rest ih =>
    by_cases h : e.isLocal = true
    · simp only [findLocal, EventEntry.IsLocal, h, if_true, Option.some.injEq]
      constructor
      · intro hx
        subst hx
        exact ⟨[], rest, rfl, h, by simp⟩
      · rintro ⟨before, after, heq, _, hb⟩
        cases before with
        | nil =>
          simp only [List.nil_append, List.cons.injEq] at heq
          exact heq.1
        | cons b bs =>
          simp only [List.cons_append, List.cons.injEq] at heq
          have := hb b (List.mem_cons_self _ _)
          rw [← heq.1, h] at this
          cases this
    · have h' : e.isLocal = false := by simpa using h
      simp only [findLocal, EventEntry.IsLocal, h', Bool.false_eq_true, if_false, ih]
      constructor
      · rintro ⟨before, after, heq, hx, hb⟩
        refine ⟨e :: before, after, by simp [heq], hx, ?_⟩
        intro y hy
        rcases List.mem_cons.mp hy with hy | hy
        · rw [hy]; exact h'
        · exact hb y hy
      · rintro ⟨before, after, heq, hx, hb⟩
        cases before with
        | nil =>
          simp only [List.nil_append, List.cons.injEq] at heq
          rw [heq.1, hx] at h'
          cases h'
        | cons b bs =>
          simp only [List.cons_append, List.cons.injEq] at heq
          exact ⟨bs, after, heq.2, hx, fun y hy => hb y (List.mem_cons_of_mem _ hy)⟩

theorem findLocal_eq_none_iff (entries : List EventEntry) :
    findLocal entries = none ↔ ∀ e ∈ entries, e.isLocal = false := by
  induction entries with
  | nil => simp [findLocal]
  | cons e rest ih =>
    by_cases h : e.isLocal = true
    · simp [findLocal, EventEntry.IsLocal, h]
    · have h' : e.isLocal = false := by simpa using h
      simp [findLocal, EventEntry.IsLocal, h', ih]

theorem findLocal_mem (entries : List EventEntry) (x : EventEntry)
    (h : findLocal entries = some x) : x ∈ entries ∧ x.isLocal = true := by
  obtain ⟨before, after, heq, hx, _⟩ := (findLocal_some_iff entries x).mp h
  exact ⟨by simp [heq], hx⟩

theorem directPick_mem (entries : List EventEntry) (x : EventEntry)
    (h : directPick entries = some x) : x ∈ entries := by
  unfold directPick at h
  cases hl : findLocal entries with
  | some loc =>
    rw [hl] at h
    simp only [Option.some.injEq] at h
    subst h
    exact (findLocal_mem entries loc hl).1
  | none =>
    rw [hl] at h
    simp only at h
    split at h
    · exact List.mem_of_mem_head? h
    · cases h

/-! ## The buckets built by `Next` -/

theorem mapIndex_groupLoop (groups : Option (List String)) (localOnly : Bool)
    (events : List EventEntry) (m : GoMap) (g : String) :
    mapIndex (groupLoop groups localOnly events m) g =
      mapIndex m g ++
        events.filter (fun e => survives groups localOnly e && decide (e.event.group = g)) := by
  induction events generalizing m with
  | nil => simp [groupLoop]
  | cons e rest ih =>
    by_cases h1 : (localOnly && !e.isLocal) = true
    · have hs : survives groups localOnly e = false := by simp [survives, h1]
      simp [groupLoop, h1, ih, hs]
    · by_cases h2 : matchGroup e.event groups = true
      · have hs : survives groups localOnly e = true := by
          have h1' : (localOnly && !e.isLocal) = false := by simpa using h1
          simp [survives, h1', h2]
        by_cases hg : e.event.group = g
        · subst hg
          simp [groupLoop, h1, h2, ih, hs, mapIndex_mapAssign_same]
        · have hg' : g ≠ e.event.group := fun h => hg h.symm
          simp [groupLoop, h1, h2, ih, hs, hg, mapIndex_mapAssign_other _ _ _ _ hg']
      · have hs : survives groups localOnly e = false := by simp [survives, h2]
        simp [groupLoop, h1, h2, ih, hs]

theorem nodup_mapKeys_groupLoop (groups : Option (List String)) (localOnly : Bool)
    (events : List EventEntry) (m : GoMap) (hm : (mapKeys m).Nodup) :
    (mapKeys (groupLoop groups localOnly events m)).Nodup := by
  induction events generalizing m with
  | nil => simpa [groupLoop] using hm
  | cons e rest ih =>
    by_cases h1 : (localOnly && !e.isLocal) = true
    · simpa [groupLoop, h1] using ih m hm
    · by_cases h2 : matchGroup e.event groups = true
      · simpa [groupLoop, h1, h2] using ih _ (nodup_mapKeys_mapAssign m _ _ hm)
      · simpa [groupLoop, h1, h2] using ih m hm

theorem groupLoop_of_none_survive (groups : Option (List String)) (localOnly : Bool)
    (events : List EventEntry) (m : GoMap)
    (h : ∀ e ∈ events, survives groups localOnly e = false) :
    groupLoop groups localOnly events m = m := by
  induction events generalizing m with
  | nil => rfl
  | cons e rest ih =>
    have he := h e (List.mem_cons_self _ _)
    have hrest := ih m (fun x hx => h x (List.mem_cons_of_mem _ hx))
    by_cases h1 : (localOnly && !e.isLocal) = true
    · simpa [groupLoop, h1] using hrest
    · by_cases h2 : matchGroup e.event groups = true
      · have h1' : (localOnly && !e.isLocal) = false := by simpa using h1
        simp [survives, h1', h2] at he
      · simpa [groupLoop, h1, h2] using hrest

/-- The bucket of a group is the list of the surviving entries of that group, in
registration order. -/
theorem entryGroups_bucket (c : EventCatalog) (name : String)
    (groups : Option (List String)) (localOnly : Bool) (g : String) :
    mapIndex (c.entryGroups name groups localOnly) g =
      (mapIndex c.events name).filter
        (fun e => survives groups localOnly e && decide (e.event.group = g)) := by
  simp [EventCatalog.entryGroups, mapIndex_groupLoop, mapIndex]

theorem entryGroups_nodup (c : EventCatalog) (name : String)
    (groups : Option (List String)) (localOnly : Bool) :
    (mapKeys (c.entryGroups name groups localOnly)).Nodup :=
  nodup_mapKeys_groupLoop groups localOnly _ [] (by simp [mapKeys])

/-- A pair visited by the second loop of `Next` is a bucket of `entryGroups`. -/
theorem visited_bucket (c : EventCatalog) (rt : GoRuntime) (name : String)
    (groups : Option (List String)) (localOnly : Bool) (b : String × List EventEntry)
    (hb : b ∈ rt.rangeOrder (c.entryGroups name groups localOnly)) :
    b.2 = mapIndex (c.entryGroups name groups localOnly) b.1 := by
  have hmem : (b.1, b.2) ∈ c.entryGroups name groups localOnly :=
    (rt.rangeOrder_perm _).mem_iff.mp hb
  exact (mapIndex_of_mem _ _ _ (entryGroups_nodup c name groups localOnly) hmem).symm

theorem mem_bucket (c : EventCatalog) (name : String) (groups : Option (List String))
    (localOnly : Bool) (g : String) (x : EventEntry)
    (hx : x ∈ mapIndex (c.entryGroups name groups localOnly) g) :
    x ∈ mapIndex c.events name ∧ survives groups localOnly x = true ∧ x.event.group = g := by
  rw [entryGroups_bucket] at hx
  simpa using hx

/-! ## The second loop of `Next` -/

theorem candidatesFrom_pointer (entries : List EventEntry) (index : Nat) (sel : Selector)
    (h : sel ∈ candidatesFrom index entries) : ∃ a p, sel = Selector.entryPointer a p := by
  induction entries generalizing index with
  | nil => simp [candidatesFrom] at h
  | cons e rest ih =>
    simp only [candidatesFrom, List.mem_cons] at h
    rcases h with h | h
    · exact ⟨index, e, h⟩
    · exact ih (index + 1) h

/-- Every candidate handed to `Select` has dynamic type `*EventEntry`. -/
theorem candidates_pointer (loopVar : LoopVar) (entries : List EventEntry) (sel : Selector)
    (h : sel ∈ candidates loopVar entries) : ∃ a p, sel = Selector.entryPointer a p := by
  cases loopVar with
  | perLoop =>
    simp only [candidates] at h
    cases hl : entries.getLast? with
    | none => rw [hl] at h; simp at h
    | some last =>
      rw [hl] at h
      simp only [List.mem_map] at h
      obtain ⟨_, _, hsel⟩ := h
      exact ⟨0, last, hsel.symm⟩
  | perIteration => exact candidatesFrom_pointer entries 0 sel h

/-- A selection made by the strategy never passes the type assertion. -/
theorem assertEventEntry_selected {σ : Type} (loopVar : LoopVar) (stg : Strategy σ) (s : σ)
    (entries : List EventEntry) (sel : Selector)
    (h : (stg.Select s (candidates loopVar entries)).1 = some sel) :
    assertEventEntry sel = .error .interfaceConversion := by
  obtain ⟨a, p, hsel⟩ := candidates_pointer loopVar entries sel (stg.select_mem _ _ _ h)
  subst hsel
  rfl

theorem selectBucket_ok {σ : Type} (loopVar : LoopVar) (stg : Strategy σ) (s s' : σ)
    (entries : List EventEntry) (o : Option EventEntry)
    (h : selectBucket loopVar stg s entries = .ok (o, s')) : o = directPick entries := by
  unfold selectBucket at h
  unfold directPick
  cases hl : findLocal entries with
  | some loc =>
    rw [hl] at h
    simp only [Except.ok.injEq, Prod.mk.injEq] at h
    simp [h.1]
  | none =>
    rw [hl] at h
    simp only at h ⊢
    by_cases h1 : entries.length = 1
    · simp only [h1, if_true, Except.ok.injEq, Prod.mk.injEq] at h
      simp [h1, h.1]
    · simp only [h1, if_false] at h ⊢
      by_cases h2 : entries.length > 1
      · simp only [h2, if_true] at h
        cases hsel : stg.Select s (candidates loopVar entries) with
        | mk sel st =>
          rw [hsel] at h
          cases sel with
          | none =>
            simp only [Except.ok.injEq, Prod.mk.injEq] at h
            exact h.1.symm
          | some c =>
            have hc : (stg.Select s (candidates loopVar entries)).1 = some c := by rw [hsel]
            have := assertEventEntry_selected loopVar stg s entries c hc
            simp only [this] at h
            cases h
      · simp only [h2, if_false, Except.ok.injEq, Prod.mk.injEq] at h
        exact h.1.symm

theorem selectBucket_direct {σ : Type} (loopVar : LoopVar) (stg : Strategy σ) (s : σ)
    (entries : List EventEntry)
    (h : (findLocal entries).isSome = true ∨ entries.length ≤ 1) :
    selectBucket loopVar stg s entries = .ok (directPick entries, s) := by
  unfold selectBucket directPick
  cases hl : findLocal entries with
  | some loc => rfl
  | none =>
    rw [hl] at h
    simp only [Option.isSome_none, Bool.false_eq_true, false_or] at h
    by_cases h1 : entries.length = 1
    · simp [h1]
    · have h2 : ¬ entries.length > 1 := by omega
      simp [h1, h2]

theorem selectBucket_panic {σ : Type} (loopVar : LoopVar) (stg : Strategy σ) (s : σ)
    (entries : List EventEntry) (hl : findLocal entries = none) (hlen : 2 ≤ entries.length)
    (hsel : (stg.Select s (candidates loopVar entries)).1.isSome = true) :
    selectBucket loopVar stg s entries = .error .interfaceConversion := by
  unfold selectBucket
  have h1 : ¬ entries.length = 1 := by omega
  have h2 : entries.length > 1 := by omega
  rw [hl]
  simp only [h1, h2, if_true, if_false]
  cases hs : stg.Select s (candidates loopVar entries) with
  | mk sel st =>
    rw [hs] at hsel
    cases sel with
    | none => simp at hsel
    | some c =>
      have hc : (stg.Select s (candidates loopVar entries)).1 = some c := by rw [hs]
      have := assertEventEntry_selected loopVar stg s entries c hc
      simp only [this]

/-- A result of the second loop holds the representatives taken without the
strategy, in the order the buckets were visited. -/
theorem nextLoop_ok {σ : Type} (loopVar : LoopVar) (stg : Strategy σ) (bs : GoMap)
    (s s' : σ) (init r : List EventEntry)
    (h : nextLoop loopVar stg bs s init = .ok (r, s')) :
    r = init ++ bs.filterMap (fun b => directPick b.2) := by
  induction bs generalizing s init with
  | nil =>
    simp only [nextLoop, Except.ok.injEq, Prod.mk.injEq] at h
    simp [h.1]
  | cons b rest ih =>
    obtain ⟨k, entries⟩ := b
    simp only [nextLoop] at h
    cases hb : selectBucket loopVar stg s entries with
    | error p => rw [hb] at h; cases h
    | ok res =>
      obtain ⟨o, st⟩ := res
      have ho := selectBucket_ok loopVar stg s st entries o hb
      rw [hb] at h
      cases o with
      | none =>
        simp only at h
        rw [ih st init h, List.filterMap_cons, ← ho]
      | some x =>
        simp only at h
        rw [ih st (init ++ [x]) h, List.filterMap_cons, ← ho]
        simp

theorem nextLoop_direct {σ : Type} (loopVar : LoopVar) (stg : Strategy σ) (bs : GoMap)
    (s : σ) (init : List EventEntry)
    (h : ∀ b ∈ bs, (findLocal b.2).isSome = true ∨ b.2.length ≤ 1) :
    nextLoop loopVar stg bs s init =
      .ok (init ++ bs.filterMap (fun b => directPick b.2), s) := by
  induction bs generalizing init with
  | nil => simp [nextLoop]
  | cons b rest ih =>
    obtain ⟨k, entries⟩ := b
    have hb := selectBucket_direct loopVar stg s entries (h (k, entries) (List.mem_cons_self _ _))
    have hrest : ∀ b ∈ rest, (findLocal b.2).isSome = true ∨ b.2.length ≤ 1 :=
      fun b hb => h b (List.mem_cons_of_mem _ hb)
    simp only [nextLoop, hb]
    cases hd : directPick entries with
    | none => simp [ih init hrest, List.filterMap_cons, hd]
    | some x => simp [ih (init ++ [x]) hrest, List.filterMap_cons, hd]

theorem nextLoop_panic {σ : Type} (loopVar : LoopVar) (stg : Strategy σ) (bs : GoMap)
    (s : σ) (init : List EventEntry) (b : String × List EventEntry) (hb : b ∈ bs)
    (hl : findLocal b.2 = none) (hlen : 2 ≤ b.2.length)
    (hsel : ∀ t, (stg.Select t (candidates loopVar b.2)).1.isSome = true) :
    nextLoop loopVar stg bs s init = .error .interfaceConversion := by
  induction bs generalizing s init with
  | nil => simp at hb
  | cons b0 rest ih =>
    obtain ⟨k, entries⟩ := b0
    simp only [nextLoop]
    cases h0 : selectBucket loopVar stg s entries with
    | error p => cases p; rfl
    | ok res =>
      obtain ⟨o, st⟩ := res
      rcases List.mem_cons.mp hb with heq | hmem
      · subst heq
        rw [selectBucket_panic loopVar stg s entries hl hlen (hsel s)] at h0
        cases h0
      · cases o with
        | none => exact ih st init hmem
        | some x => exact ih st (init ++ [x]) hmem

/-! ## `Next` as a whole -/

theorem Next_ok_eq {σ : Type} (c : EventCatalog) (rt : GoRuntime) (name : String)
    (stg : Strategy σ) (s : σ) (groups : Option (List String)) (localOnly : Bool)
    (r : List EventEntry) (h : c.Next rt name stg s groups localOnly = .ok r) :
    r = (rt.rangeOrder (c.entryGroups name groups localOnly)).filterMap
      (fun b => directPick b.2) := by
  unfold EventCatalog.Next at h
  cases hn : nextLoop rt.loopVar stg
      (rt.rangeOrder (c.entryGroups name groups localOnly)) s [] with
  | error p => rw [hn] at h; cases h
  | ok res =>
    obtain ⟨r0, st⟩ := res
    rw [hn] at h
    simp only [Except.ok.injEq] at h
    subst h
    simpa using nextLoop_ok rt.loopVar stg _ s st [] r0 hn

/-- Among the representatives of buckets with distinct keys, those of group `g`
are the representative of the bucket stored under `g`. -/
theorem filterMap_directPick_group (bs : GoMap) (g : String) (hk : (mapKeys bs).Nodup)
    (hg : ∀ b ∈ bs, ∀ x ∈ b.2, x.event.group = b.1) :
    (bs.filterMap (fun b => directPick b.2)).filter (fun x => decide (x.event.group = g)) =
      (directPick (mapIndex bs g)).toList := by
  induction bs with
  | nil => simp [mapIndex, directPick, findLocal]
  | cons b rest ih =>
    obtain ⟨k, entries⟩ := b
    have hk' : k ∉ mapKeys rest ∧ (mapKeys rest).Nodup := by
      simpa [mapKeys] using hk
    have hrest := ih hk'.2 (fun b hb => hg b (List.mem_cons_of_mem _ hb))
    have hhead : ∀ x, directPick entries = some x → x.event.group = k := fun x hx =>
      hg (k, entries) (List.mem_cons_self _ _) x (directPick_mem entries x hx)
    by_cases hkg : k = g
    · subst hkg
      have hnil : mapIndex rest k = [] := mapIndex_eq_nil_of_not_mem rest k hk'.1
      rw [hnil] at hrest
      have hnone : directPick ([] : List EventEntry) = none := by
        simp [directPick, findLocal]
      rw [hnone] at hrest
      simp only [Option.toList] at hrest
      cases hd : directPick entries with
      | none => simp [List.filterMap_cons, hd, hrest, mapIndex]
      | some x => simp [List.filterMap_cons, hd, hrest, mapIndex, hhead x hd]
    · cases hd : directPick entries with
      | none => simp [List.filterMap_cons, hd, hrest, mapIndex, hkg]
      | some x =>
        have hx : ¬ x.event.group = g := by
          rw [hhead x hd]
          exact hkg
        simp [List.filterMap_cons, hd, hrest, mapIndex, hkg, hx]

/-- When `Next` returns, the entries of group `g` in its result are exactly the
representative that the bucket of `g` yields without the strategy. -/
theorem Next_ok_group {σ : Type} (c : EventCatalog) (rt : GoRuntime) (name : String)
    (stg : Strategy σ) (s : σ) (groups : Option (List String)) (localOnly : Bool)
    (r : List EventEntry) (g : String)
    (h : c.Next rt name stg s groups localOnly = .ok r) :
    r.filter (fun x => decide (x.event.group = g)) =
      (directPick (mapIndex (c.entryGroups name groups localOnly) g)).toList := by
  have hperm := rt.rangeOrder_perm (c.entryGroups name groups localOnly)
  have hnodup := entryGroups_nodup c name groups localOnly
  rw [Next_ok_eq c rt name stg s groups localOnly r h,
    ← mapIndex_perm _ _ g hperm hnodup]
  apply filterMap_directPick_group
  · exact (hperm.map Prod.fst).nodup_iff.mpr hnodup
  · intro b hb x hx
    rw [visited_bucket c rt name groups localOnly b hb] at hx
    exact (mem_bucket c name groups localOnly b.1 x hx).2.2

/-- When `Next` returns, every entry of its result is the first local entry or the
only entry of the bucket of its group. -/
theorem Next_ok_mem {σ : Type} (c : EventCatalog) (rt : GoRuntime) (name : String)
    (stg : Strategy σ) (s : σ) (groups : Option (List String)) (localOnly : Bool)
    (r : List EventEntry) (x : EventEntry)
    (h : c.Next rt name stg s groups localOnly = .ok r) (hx : x ∈ r) :
    directPick (mapIndex (c.entryGroups name groups localOnly) x.event.group) = some x := by
  have hf : x ∈ r.filter (fun y => decide (y.event.group = x.event.group)) := by
    simp [hx]
  rw [Next_ok_group c rt name stg s groups localOnly r x.event.group h] at hf
  simpa [Option.mem_toList] using hf

/-- Totality without the strategy: `Next` returns whenever no bucket makes it consult
the strategy. -/
theorem Next_direct {σ : Type} (c : EventCatalog) (rt : GoRuntime) (name : String)
    (stg : Strategy σ) (s : σ) (groups : Option (List String)) (localOnly : Bool)
    (h : ∀ g, (findLocal (mapIndex (c.entryGroups name groups localOnly) g)).isSome = true ∨
      (mapIndex (c.entryGroups name groups localOnly) g).length ≤ 1) :
    c.Next rt name stg s groups localOnly =
      .ok ((rt.rangeOrder (c.entryGroups name groups localOnly)).filterMap
        (fun b => directPick b.2)) := by
  unfold EventCatalog.Next
  rw [nextLoop_direct rt.loopVar stg _ s []]
  · simp
  · intro b hb
    rw [visited_bucket c rt name groups localOnly b hb]
    exact h b.1

/-- Panic: `Next` panics whenever some bucket has two or more entries, all remote, and the
strategy makes a selection for it. -/
theorem Next_panic {σ : Type} (c : EventCatalog) (rt : GoRuntime) (name : String)
    (stg : Strategy σ) (s : σ) (groups : Option (List String)) (localOnly : Bool)
    (g : String)
    (hlen : 2 ≤ (mapIndex (c.entryGroups name groups localOnly) g).length)
    (hremote : ∀ e ∈ mapIndex (c.entryGroups name groups localOnly) g, e.isLocal = false)
    (hsel : ∀ t, (stg.Select t (candidates rt.loopVar
      (mapIndex (c.entryGroups name groups localOnly) g))).1.isSome = true) :
    c.Next rt name stg s groups localOnly = .error .interfaceConversion := by
  have hne : mapIndex (c.entryGroups name groups localOnly) g ≠ [] := by
    intro h0
    rw [h0] at hlen
    simp at hlen
  have hmem := (rt.rangeOrder_perm _).mem_iff.mpr (mem_of_mapIndex_ne_nil _ g hne)
  unfold EventCatalog.Next
  rw [nextLoop_panic rt.loopVar stg _ s [] _ hmem
    ((findLocal_eq_none_iff _).mpr hremote) hlen hsel]

/-! ## Calls of `Next` in which the strategy makes no selection -/

theorem selectBucket_returns {σ : Type} (loopVar : LoopVar) (stg : Strategy σ) (s : σ)
    (entries : List EventEntry)
    (h : (findLocal entries).isSome = true ∨ entries.length ≤ 1 ∨
      ∀ t, (stg.Select t (candidates loopVar entries)).1 = none) :
    ∃ s', selectBucket loopVar stg s entries = .ok (directPick entries, s') := by
  rcases h with h | h | h
  · exact ⟨s, selectBucket_direct loopVar stg s entries (Or.inl h)⟩
  · exact ⟨s, selectBucket_direct loopVar stg s entries (Or.inr h)⟩
  · by_cases hd : (findLocal entries).isSome = true ∨ entries.length ≤ 1
    · exact ⟨s, selectBucket_direct loopVar stg s entries hd⟩
    · have hl : findLocal entries = none := by
        cases hf : findLocal entries with
        | none => rfl
        | some x => exact absurd (Or.inl (by simp [hf])) hd
      have h1 : ¬ entries.length = 1 := fun h1 => hd (Or.inr (by omega))
      have h2 : entries.length > 1 := by
        by_contra h2
        exact hd (Or.inr (by omega))
      have hs := h s
      cases hsel : stg.Select s (candidates loopVar entries) with
      | mk sel st =>
        rw [hsel] at hs
        simp only at hs
        subst hs
        refine ⟨st, ?_⟩
        unfold selectBucket directPick
        rw [hl]
        simp only [h1, h2, if_true, if_false, hsel]

/-- The second loop returns when every bucket visited holds a local entry, or at
most one entry, or gets no selection from the strategy. -/
theorem nextLoop_returns {σ : Type} (loopVar : LoopVar) (stg : Strategy σ) (bs : GoMap)
    (s : σ) (init : List EventEntry)
    (h : ∀ b ∈ bs, (findLocal b.2).isSome = true ∨ b.2.length ≤ 1 ∨
      ∀ t, (stg.Select t (candidates loopVar b.2)).1 = none) :
    ∃ s', nextLoop loopVar stg bs s init =
      .ok (init ++ bs.filterMap (fun b => directPick b.2), s') := by
  induction bs generalizing s init with
  | nil => exact ⟨s, by simp [nextLoop]⟩
  | cons b rest ih =>
    obtain ⟨k, entries⟩ := b
    obtain ⟨st, hb⟩ := selectBucket_returns loopVar stg s entries
      (h (k, entries) (List.mem_cons_self _ _))
    have hrest : ∀ b ∈ rest, (findLocal b.2).isSome = true ∨ b.2.length ≤ 1 ∨
        ∀ t, (stg.Select t (candidates loopVar b.2)).1 = none :=
      fun b hb => h b (List.mem_cons_of_mem _ hb)
    simp only [nextLoop, hb]
    cases hd : directPick entries with
    | none =>
      obtain ⟨s', hs'⟩ := ih st init hrest
      exact ⟨s', by simp [hs', List.filterMap_cons, hd]⟩
    | some x =>
      obtain ⟨s', hs'⟩ := ih st (init ++ [x]) hrest
      exact ⟨s', by simp [hs', List.filterMap_cons, hd]⟩

/-- Totality: `Next` returns when every bucket holds a local entry, or at most one
entry, or gets no selection from the strategy. -/
theorem Next_returns {σ : Type} (c : EventCatalog) (rt : GoRuntime) (name : String)
    (stg : Strategy σ) (s : σ) (groups : Option (List String)) (localOnly : Bool)
    (h : ∀ g, (findLocal (c.bucket name groups localOnly g)).isSome = true ∨
      (c.bucket name groups localOnly g).length ≤ 1 ∨
      ∀ t, (stg.Select t (candidates rt.loopVar (c.bucket name groups localOnly g))).1 =
        none) :
    c.Next rt name stg s groups localOnly =
      .ok ((rt.rangeOrder (c.entryGroups name groups localOnly)).filterMap
        (fun b => directPick b.2)) := by
  obtain ⟨s', hs'⟩ := nextLoop_returns rt.loopVar stg
    (rt.rangeOrder (c.entryGroups name groups localOnly)) s [] (by
      intro b hb
      rw [visited_bucket c rt name groups localOnly b hb]
      exact h b.1)
  unfold EventCatalog.Next
  rw [hs']
  simp

/-- With a strategy that never selects, billing remote on node A and shipping
remote on nodes B and C yield the entry of A alone, under every run time. -/
theorem Next_noSelection_example (rt : GoRuntime) :
    remoteSingleAndPair.Next rt "order.created" noSelection () none false =
      .ok [⟨"A", orderBilling, false⟩] := by
  have hm : remoteSingleAndPair.entryGroups "order.created" none false =
      [("billing", [⟨"A", orderBilling, false⟩]),
        ("shipping", [⟨"B", orderShipping, false⟩, ⟨"C", orderShipping, false⟩])] := by
    rfl
  rw [Next_returns remoteSingleAndPair rt "order.created" noSelection () none false
    (fun g => Or.inr (Or.inr (fun t => rfl)))]
  have hperm := (rt.rangeOrder_perm
    (remoteSingleAndPair.entryGroups "order.created" none false)).filterMap
    (fun b => directPick b.2)
  have hval : (remoteSingleAndPair.entryGroups "order.created" none false).filterMap
      (fun b => directPick b.2) = [⟨"A", orderBilling, false⟩] := by
    rw [hm]
    rfl
  rw [hval] at hperm
  rw [List.perm_singleton.mp hperm]

/-! ## Strategies that make a selection -/

theorem candidatesFrom_length (entries : List EventEntry) (index : Nat) :
    (candidatesFrom index entries).length = entries.length := by
  induction entries generalizing index with
  | nil => rfl
  | cons e rest ih => simp [candidatesFrom, ih]

/-- The candidate list has one candidate per bucket entry. -/
theorem candidates_length (loopVar : LoopVar) (entries : List EventEntry) :
    (candidates loopVar entries).length = entries.length := by
  cases loopVar with
  | perLoop =>
    cases entries with
    | nil => rfl
    | cons e rest =>
      simp only [candidates]
      cases hl : (e :: rest).getLast? with
      | none => simp at hl
      | some last => simp
  | perIteration => exact candidatesFrom_length entries 0

theorem candidates_ne_nil (loopVar : LoopVar) (entries : List EventEntry)
    (h : entries ≠ []) : candidates loopVar entries ≠ [] := by
  intro h0
  have := candidates_length loopVar entries
  rw [h0] at this
  exact h (List.length_eq_zero.mp this.symm)

theorem firstCandidate_selects (t : Unit) (cs : List Selector) (h : cs ≠ []) :
    (firstCandidate.Select t cs).1.isSome = true := by
  cases cs with
  | nil => exact absurd rfl h
  | cons a rest => rfl

theorem roundRobin_selects (t : Nat) (cs : List Selector) (h : cs ≠ []) :
    (roundRobin.Select t cs).1.isSome = true := by
  have hlt : t % cs.length < cs.length := Nat.mod_lt _ (List.length_pos.mpr h)
  show (cs.get? (t % cs.length)).isSome = true
  rw [List.get?_eq_get hlt]
  rfl

/-! ## Properties that hold whenever `Next` returns -/

/-- Local-first, for a call of `Next` that returns: the entries of a group whose
bucket holds a local entry are exactly the first local entry of the bucket. -/
theorem Next_ok_local_first {σ : Type} (c : EventCatalog) (rt : GoRuntime) (name : String)
    (stg : Strategy σ) (s : σ) (groups : Option (List String)) (localOnly : Bool)
    (r : List EventEntry) (g : String) (x : EventEntry)
    (h : c.Next rt name stg s groups localOnly = .ok r)
    (hx : findLocal (c.bucket name groups localOnly g) = some x) :
    r.filter (fun y => decide (y.event.group = g)) = [x] := by
  rw [Next_ok_group c rt name stg s groups localOnly r g h]
  simp [directPick, hx]

/-- Single-candidate bypass, for a call of `Next` that returns: the entries of a
group whose bucket holds one entry are exactly that entry. -/
theorem Next_ok_single {σ : Type} (c : EventCatalog) (rt : GoRuntime) (name : String)
    (stg : Strategy σ) (s : σ) (groups : Option (List String)) (localOnly : Bool)
    (r : List EventEntry) (g : String) (x : EventEntry)
    (h : c.Next rt name stg s groups localOnly = .ok r)
    (hx : c.bucket name groups localOnly g = [x]) :
    r.filter (fun y => decide (y.event.group = g)) = [x] := by
  rw [Next_ok_group c rt name stg s groups localOnly r g h]
  have hb : mapIndex (c.entryGroups name groups localOnly) g = [x] := hx
  rw [hb]
  by_cases hl : x.isLocal = true
  · simp [directPick, findLocal, EventEntry.IsLocal, hl]
  · simp [directPick, findLocal, EventEntry.IsLocal, hl]

/-- One entry per group, for a call of `Next` that returns. -/
theorem Next_ok_one_per_group {σ : Type} (c : EventCatalog) (rt : GoRuntime) (name : String)
    (stg : Strategy σ) (s : σ) (groups : Option (List String)) (localOnly : Bool)
    (r : List EventEntry) (g : String)
    (h : c.Next rt name stg s groups localOnly = .ok r) :
    (r.filter (fun y => decide (y.event.group = g))).length ≤ 1 := by
  rw [Next_ok_group c rt name stg s groups localOnly r g h]
  cases directPick (mapIndex (c.entryGroups name groups localOnly) g) <;> simp

/-! ## Claims -/

/-- C1. Local-first fails on the code: with billing local on node A and shipping
remote on nodes B and C, the bucket of billing holds the local entry of A, yet
`Next` with a strategy that selects its first candidate panics under every run time,
so no result with the local entry is returned. -/
theorem C1_local_first_lost_to_panic (rt : GoRuntime) :
    localAndRemotePair.bucket "order.created" none false "billing" =
        [⟨"A", orderBilling, true⟩] ∧
      findLocal (localAndRemotePair.bucket "order.created" none false "billing") =
        some ⟨"A", orderBilling, true⟩ ∧
      localAndRemotePair.Next rt "order.created" firstCandidate () none false =
        .error .interfaceConversion := by
  refine ⟨by decide, by decide, ?_⟩
  apply Next_panic localAndRemotePair rt "order.created" firstCandidate () none false
    "shipping" (by decide) (by decide)
  intro t
  exact firstCandidate_selects t _ (candidates_ne_nil _ _ (by decide))

/-- C2. The strategy's choice is never returned: whenever a group's bucket has two
or more entries, all remote, and the strategy makes a selection for its candidates,
`Next` panics at the type assertion instead of returning the selected entry. -/
theorem C2_strategy_choice_panics {σ : Type} (c : EventCatalog) (rt : GoRuntime)
    (name : String) (stg : Strategy σ) (s : σ) (groups : Option (List String))
    (localOnly : Bool) (g : String)
    (hlen : 2 ≤ (c.bucket name groups localOnly g).length)
    (hremote : ∀ e ∈ c.bucket name groups localOnly g, e.isLocal = false)
    (hsel : ∀ t, (stg.Select t
      (candidates rt.loopVar (c.bucket name groups localOnly g))).1.isSome = true) :
    c.Next rt name stg s groups localOnly = .error .interfaceConversion :=
  Next_panic c rt name stg s groups localOnly g hlen hremote hsel

/-- C2 at shipping remote on nodes B and C with the first-candidate strategy. -/
theorem C2_strategy_choice_panics_witness :
    2 ≤ (remotePair.bucket "order.created" none false "shipping").length ∧
      (∀ e ∈ remotePair.bucket "order.created" none false "shipping", e.isLocal = false) ∧
      remotePair.Next insertionOrder "order.created" firstCandidate () none false =
        .error .interfaceConversion :=
  ⟨by decide, by decide,
    C2_strategy_choice_panics remotePair insertionOrder "order.created" firstCandidate ()
      none false "shipping" (by decide) (by decide)
      (fun t => firstCandidate_selects t _ (candidates_ne_nil _ _ (by decide)))⟩

/-- C3. Single-candidate bypass fails on the code: with billing remote on node A
only and shipping remote on nodes B and C, the bucket of billing is the single
remote entry of A; `Next` returns it with a strategy that never selects, yet with
a strategy that selects its first candidate `Next` panics under every run time, so
the entry of A is not returned. -/
theorem C3_single_candidate_lost_to_panic (rt : GoRuntime) :
    remoteSingleAndPair.bucket "order.created" none false "billing" =
        [⟨"A", orderBilling, false⟩] ∧
      remoteSingleAndPair.Next rt "order.created" noSelection () none false =
        .ok [⟨"A", orderBilling, false⟩] ∧
      remoteSingleAndPair.Next rt "order.created" firstCandidate () none false =
        .error .interfaceConversion := by
  refine ⟨by decide, Next_noSelection_example rt, ?_⟩
  apply Next_panic remoteSingleAndPair rt "order.created" firstCandidate () none false
    "shipping" (by decide) (by decide)
  intro t
  exact firstCandidate_selects t _ (candidates_ne_nil _ _ (by decide))

/-- C4. One entry per group fails on the code: with billing remote on node A only
and shipping remote on nodes B and C, the bucket of billing holds exactly one entry,
yet `Next` with a round-robin strategy in any state panics under every run time, so
billing is not represented in a result. -/
theorem C4_group_broadcast_lost_to_panic (rt : GoRuntime) (t : Nat) :
    (remoteSingleAndPair.bucket "order.created" none false "billing").length = 1 ∧
      remoteSingleAndPair.Next rt "order.created" roundRobin t none false =
        .error .interfaceConversion := by
  refine ⟨by decide, ?_⟩
  apply Next_panic remoteSingleAndPair rt "order.created" roundRobin t none false
    "shipping" (by decide) (by decide)
  intro u
  exact roundRobin_selects u _ (candidates_ne_nil _ _ (by decide))

/-- C5. After `Remove(n, name)` the sequence stored under `name` is the previous
sequence without the entries whose target node is `n`, the others in their
original order. -/
theorem C5_remove_filters_node (c : EventCatalog) (n name : String) :
    mapIndex (c.Remove n name).events name =
      (mapIndex c.events name).filter (fun e => decide (e.targetNodeID ≠ n)) := by
  simp [EventCatalog.Remove, mapIndex_mapAssign_same, removeLoop_eq_filter]

/-- C6. `Remove(n, name)` leaves the sequence stored under every other event name
unchanged. -/
theorem C6_remove_frame (c : EventCatalog) (n name other : String) (h : other ≠ name) :
    mapIndex (c.Remove n name).events other = mapIndex c.events other := by
  simp [EventCatalog.Remove, mapIndex_mapAssign_other _ _ _ _ h]

/-- C6 at node B with entries under "order.created" and "user.created": removing
B from "order.created" keeps the entry of B under "user.created". -/
theorem C6_remove_frame_witness :
    "user.created" ≠ "order.created" ∧
      mapIndex (((CreateEventCatalog.Add "B" orderShipping false).Add "B"
        ⟨"user.created", "mail-service", "mail", 3⟩ true).Remove "B" "order.created").events
        "user.created" = [⟨"B", ⟨"user.created", "mail-service", "mail", 3⟩, true⟩] :=
  ⟨by decide,
    C6_remove_frame ((CreateEventCatalog.Add "B" orderShipping false).Add "B"
      ⟨"user.created", "mail-service", "mail", 3⟩ true) "B" "order.created" "user.created"
      (by decide)⟩

/-- C7. After `Add(n, e, local)` the sequence stored under `e.Name()` is the
previous sequence followed by the entry `(n, e, local)`, one entry longer, and the
sequences under all other names are unchanged. -/
theorem C7_add_appends (c : EventCatalog) (n : String) (e : Event) (isLocal : Bool) :
    mapIndex (c.Add n e isLocal).events e.name =
        mapIndex c.events e.name ++ [⟨n, e, isLocal⟩] ∧
      (mapIndex (c.Add n e isLocal).events e.name).length =
        (mapIndex c.events e.name).length + 1 ∧
      ∀ other, other ≠ e.name →
        mapIndex (c.Add n e isLocal).events other = mapIndex c.events other := by
  refine ⟨?_, ?_, ?_⟩
  · simp [EventCatalog.Add, mapIndex_mapAssign_same]
  · simp [EventCatalog.Add, mapIndex_mapAssign_same]
  · intro other h
    simp [EventCatalog.Add, mapIndex_mapAssign_other _ _ _ _ h]

/-- C7 at a catalog that already holds the identical entry: the sequence grows to
two equal entries, and another name stays empty. -/
theorem C7_add_appends_witness :
    mapIndex ((CreateEventCatalog.Add "A" orderBilling false).Add "A" orderBilling
        false).events "order.created" =
        [⟨"A", orderBilling, false⟩, ⟨"A", orderBilling, false⟩] ∧
      "user.created" ≠ "order.created" ∧
      mapIndex ((CreateEventCatalog.Add "A" orderBilling false).Add "A" orderBilling
        false).events "user.created" = [] :=
  ⟨(C7_add_appends (CreateEventCatalog.Add "A" orderBilling false) "A" orderBilling false).1,
    by decide,
    (C7_add_appends (CreateEventCatalog.Add "A" orderBilling false) "A" orderBilling
      false).2.2 "user.created" (by decide)⟩

/-! ## Registered entries and the result of `Next` -/

theorem mem_events_apply (c : EventCatalog) (op : CatalogOp) (x : EventEntry) (k : String)
    (hx : x ∈ mapIndex c.events k) (hop : op ≠ CatalogOp.remove x.targetNodeID k) :
    x ∈ mapIndex (c.apply op).events k := by
  cases op with
  | add nodeID event isLocal =>
    by_cases hk : k = event.name
    · subst hk
      simp [EventCatalog.apply, EventCatalog.Add, mapIndex_mapAssign_same, hx]
    · simpa [EventCatalog.apply, EventCatalog.Add, mapIndex_mapAssign_other _ _ _ _ hk]
        using hx
  | update nodeID name updates => exact hx
  | remove nodeID name =>
    by_cases hk : k = name
    · subst hk
      have hn : x.targetNodeID ≠ nodeID := by
        intro h
        apply hop
        rw [h]
      simp [EventCatalog.apply, EventCatalog.Remove, mapIndex_mapAssign_same,
        removeLoop_eq_filter, hx, hn]
    · simpa [EventCatalog.apply, EventCatalog.Remove, mapIndex_mapAssign_other _ _ _ _ hk]
        using hx

/-- An entry stays stored under its name until `Remove` is called for its node and
that name. -/
theorem mem_events_run (c : EventCatalog) (ops : List CatalogOp) (x : EventEntry)
    (k : String) (hx : x ∈ mapIndex c.events k)
    (hops : CatalogOp.remove x.targetNodeID k ∉ ops) :
    x ∈ mapIndex (c.run ops).events k := by
  induction ops generalizing c with
  | nil => exact hx
  | cons op rest ih =>
    have h1 : op ≠ CatalogOp.remove x.targetNodeID k := by
      intro h
      apply hops
      rw [h]
      exact List.mem_cons_self _ _
    have h2 : CatalogOp.remove x.targetNodeID k ∉ rest :=
      fun h => hops (List.mem_cons_of_mem _ h)
    exact ih (c.apply op) (mem_events_apply c op x k hx h1) h2

theorem findLocal_isSome_of_mem (entries : List EventEntry) (x : EventEntry)
    (hx : x ∈ entries) (hl : x.isLocal = true) : (findLocal entries).isSome = true := by
  cases h : findLocal entries with
  | some y => rfl
  | none =>
    have := (findLocal_eq_none_iff entries).mp h x hx
    rw [hl] at this
    cases this

/-- The example of the spec: billing on node A and shipping on node B, queried
without filters, yields two entries, the one of A for billing and the one of B for
shipping, for every strategy and run time. -/
theorem Next_group_broadcast_example {σ : Type} (rt : GoRuntime) (stg : Strategy σ)
    (s : σ) (la lb : Bool) :
    ∃ r, (billingAndShipping la lb).Next rt "order.created" stg s none false = .ok r ∧
      r.length = 2 ∧
      r.filter (fun x => decide (x.event.group = "billing")) = [⟨"A", orderBilling, la⟩] ∧
      r.filter (fun x => decide (x.event.group = "shipping")) =
        [⟨"B", orderShipping, lb⟩] := by
  have hm : (billingAndShipping la lb).entryGroups "order.created" none false =
      [("billing", [⟨"A", orderBilling, la⟩]), ("shipping", [⟨"B", orderShipping, lb⟩])] := by
    cases la <;> cases lb <;> rfl
  have hdirect : ∀ g,
      (findLocal (mapIndex ((billingAndShipping la lb).entryGroups "order.created" none
        false) g)).isSome = true ∨
      (mapIndex ((billingAndShipping la lb).entryGroups "order.created" none false)
        g).length ≤ 1 := by
    intro g
    right
    rw [hm]
    simp only [mapIndex]
    split
    · simp
    · split <;> simp
  have hok := Next_direct (billingAndShipping la lb) rt "order.created" stg s none false
    hdirect
  refine ⟨_, hok, ?_, ?_, ?_⟩
  · have hperm := (rt.rangeOrder_perm
      ((billingAndShipping la lb).entryGroups "order.created" none false)).filterMap
      (fun b => directPick b.2)
    rw [hperm.length_eq, hm]
    cases la <;> cases lb <;> rfl
  · rw [Next_ok_single _ rt "order.created" stg s none false _ "billing"
      ⟨"A", orderBilling, la⟩ hok]
    show mapIndex ((billingAndShipping la lb).entryGroups "order.created" none false)
      "billing" = _
    rw [hm]
    rfl
  · rw [Next_ok_single _ rt "order.created" stg s none false _ "shipping"
      ⟨"B", orderShipping, lb⟩ hok]
    show mapIndex ((billingAndShipping la lb).entryGroups "order.created" none false)
      "shipping" = _
    rw [hm]
    rfl

/-- C8, as stated, fails: after billing is registered locally on node A, `Add` of
the same event for node B as a remote entry is followed by a call of `Next` with
matching filters whose result is the local entry of A alone, with no entry whose
target node is B. -/
theorem C8_registration_monotonicity_counterexample :
    matchGroup orderBilling none = true ∧
      ((CreateEventCatalog.Add "A" orderBilling true).Add "B" orderBilling false).Next
        insertionOrder "order.created" firstCandidate () none false =
        .ok [⟨"A", orderBilling, true⟩] ∧
      (⟨"A", orderBilling, true⟩ : EventEntry).targetNodeID ≠ "B" :=
  ⟨by decide, by rfl, by decide⟩

/-- C8, amended. After `Add(n, e, local)` and any further calls other than
`Remove(n, e.Name())`, the entry `(n, e, local)` is in the bucket of `e.Group()` for
matching filters; a call of `Next` that returns includes it, as the only entry of
that group, when it is the first local entry of that bucket or the bucket's only
entry; and `Next` returns whenever every bucket holds a local entry or at most one
entry. -/
theorem C8_registered_entry_when_representative {σ : Type} (c : EventCatalog)
    (n : String) (e : Event) (isLocal : Bool) (ops : List CatalogOp) (rt : GoRuntime)
    (stg : Strategy σ) (s : σ) (groups : Option (List String)) (localOnly : Bool)
    (hops : CatalogOp.remove n e.name ∉ ops)
    (hgroups : matchGroup e groups = true)
    (hlocal : localOnly = false ∨ isLocal = true) :
    (⟨n, e, isLocal⟩ : EventEntry) ∈
        ((c.Add n e isLocal).run ops).bucket e.name groups localOnly e.group ∧
      (∀ r, ((c.Add n e isLocal).run ops).Next rt e.name stg s groups localOnly = .ok r →
        (findLocal (((c.Add n e isLocal).run ops).bucket e.name groups localOnly e.group) =
            some ⟨n, e, isLocal⟩ ∨
          ((c.Add n e isLocal).run ops).bucket e.name groups localOnly e.group =
            [⟨n, e, isLocal⟩]) →
        (⟨n, e, isLocal⟩ : EventEntry) ∈ r ∧
          r.filter (fun x => decide (x.event.group = e.group)) = [⟨n, e, isLocal⟩]) ∧
      ((∀ g, (findLocal (((c.Add n e isLocal).run ops).bucket e.name groups localOnly
            g)).isSome = true ∨
          (((c.Add n e isLocal).run ops).bucket e.name groups localOnly g).length ≤ 1) →
        ∃ r, ((c.Add n e isLocal).run ops).Next rt e.name stg s groups localOnly = .ok r) := by
  refine ⟨?_, ?_, ?_⟩
  · have hadd : (⟨n, e, isLocal⟩ : EventEntry) ∈ mapIndex (c.Add n e isLocal).events e.name := by
      simp [EventCatalog.Add, mapIndex_mapAssign_same]
    have hrun := mem_events_run (c.Add n e isLocal) ops ⟨n, e, isLocal⟩ e.name hadd hops
    have hsurv : survives groups localOnly ⟨n, e, isLocal⟩ = true := by
      rcases hlocal with h | h
      · simp [survives, h, hgroups]
      · simp [survives, h, hgroups]
    show (⟨n, e, isLocal⟩ : EventEntry) ∈
      mapIndex (((c.Add n e isLocal).run ops).entryGroups e.name groups localOnly) e.group
    rw [entryGroups_bucket]
    simp [hrun, hsurv]
  · intro r hr hrep
    have hfilter : r.filter (fun x => decide (x.event.group = e.group)) =
        [⟨n, e, isLocal⟩] := by
      rcases hrep with h | h
      · exact Next_ok_local_first _ rt e.name stg s groups localOnly r e.group _ hr h
      · exact Next_ok_single _ rt e.name stg s groups localOnly r e.group _ hr h
    refine ⟨?_, hfilter⟩
    have hmem : (⟨n, e, isLocal⟩ : EventEntry) ∈
        r.filter (fun x => decide (x.event.group = e.group)) := by
      rw [hfilter]
      exact List.mem_singleton.mpr rfl
    exact (List.mem_filter.mp hmem).1
  · intro h
    exact ⟨_, Next_direct _ rt e.name stg s groups localOnly h⟩

/-- C8, amended, at billing registered locally on node A in an empty catalog,
followed by shipping registered on node B and removed again. -/
theorem C8_registered_entry_when_representative_witness :
    (⟨"A", orderBilling, true⟩ : EventEntry) ∈
        ((CreateEventCatalog.Add "A" orderBilling true).run
          [CatalogOp.add "B" orderShipping false,
            CatalogOp.remove "B" "order.created"]).bucket
          "order.created" none false "billing" ∧
      ((CreateEventCatalog.Add "A" orderBilling true).run
          [CatalogOp.add "B" orderShipping false,
            CatalogOp.remove "B" "order.created"]).Next
          insertionOrder "order.created" firstCandidate () none false =
        .ok [⟨"A", orderBilling, true⟩] ∧
      (⟨"A", orderBilling, true⟩ : EventEntry) ∈ [(⟨"A", orderBilling, true⟩ : EventEntry)] :=
  ⟨(C8_registered_entry_when_representative CreateEventCatalog "A" orderBilling true
      [CatalogOp.add "B" orderShipping false, CatalogOp.remove "B" "order.created"]
      insertionOrder firstCandidate () none false (by decide) (by decide)
      (Or.inl rfl)).1,
    by rfl,
    ((C8_registered_entry_when_representative CreateEventCatalog "A" orderBilling true
      [CatalogOp.add "B" orderShipping false, CatalogOp.remove "B" "order.created"]
      insertionOrder firstCandidate () none false (by decide) (by decide)
      (Or.inl rfl)).2.1 [⟨"A", orderBilling, true⟩] (by rfl) (Or.inl (by rfl))).1⟩

/-! ## Filters of `Next` -/

theorem matchGroup_iff (e : Event) (groups : Option (List String)) :
    matchGroup e groups = true ↔
      groups = none ∨ groups = some [] ∨ ∃ gs, groups = some gs ∧ e.group ∈ gs := by
  cases groups with
  | none => simp [matchGroup]
  | some gs =>
    cases gs with
    | nil => simp [matchGroup]
    | cons g rest =>
      simp only [matchGroup, matchGroupLoop_iff]
      constructor
      · intro h
        exact Or.inr (Or.inr ⟨g :: rest, rfl, h⟩)
      · rintro (h | h | ⟨gs, h, hmem⟩)
        · cases h
        · cases h
        · cases h
          exact hmem

/-- Every entry of a result of `Next` survived both filters of the first loop and
is stored under the name. -/
theorem Next_ok_survives {σ : Type} (c : EventCatalog) (rt : GoRuntime) (name : String)
    (stg : Strategy σ) (s : σ) (groups : Option (List String)) (localOnly : Bool)
    (r : List EventEntry) (x : EventEntry)
    (h : c.Next rt name stg s groups localOnly = .ok r) (hx : x ∈ r) :
    x ∈ mapIndex c.events name ∧ survives groups localOnly x = true := by
  have hpick := Next_ok_mem c rt name stg s groups localOnly r x h hx
  have hmem := mem_bucket c name groups localOnly x.event.group x (directPick_mem _ x hpick)
  exact ⟨hmem.1, hmem.2.1⟩

theorem isLocal_of_survives_localOnly (groups : Option (List String)) (x : EventEntry)
    (h : survives groups true x = true) : x.isLocal = true := by
  cases hl : x.isLocal with
  | true => rfl
  | false => simp [survives, hl] at h

/-- C9. `matchGroup(e, groups)` is true exactly when `groups` is nil or empty or
holds `e.Group()`; every entry returned by `Next` under a non-empty group filter
has its group in the filter; and with billing on node A and shipping on node B,
`Next("order.created", stg, ["billing"], false)` returns exactly the entry of A. -/
theorem C9_group_filtering {σ : Type} (c : EventCatalog) (rt : GoRuntime) (name : String)
    (stg : Strategy σ) (s : σ) (localOnly la lb : Bool) :
    (∀ (e : Event) (groups : Option (List String)), matchGroup e groups = true ↔
        groups = none ∨ groups = some [] ∨ ∃ gs, groups = some gs ∧ e.group ∈ gs) ∧
      (∀ (gs : List String) (r : List EventEntry), gs ≠ [] →
        c.Next rt name stg s (some gs) localOnly = .ok r → ∀ x ∈ r, x.event.group ∈ gs) ∧
      (billingAndShipping la lb).Next rt "order.created" stg s (some ["billing"]) false =
        .ok [⟨"A", orderBilling, la⟩] := by
  refine ⟨matchGroup_iff, ?_, ?_⟩
  · intro gs r hgs hr x hx
    have hs := (Next_ok_survives c rt name stg s (some gs) localOnly r x hr hx).2
    have hm : matchGroup x.event (some gs) = true := by
      simp only [survives, Bool.and_eq_true] at hs
      exact hs.2
    rcases (matchGroup_iff x.event (some gs)).mp hm with h | h | ⟨gs', h, hmem⟩
    · cases h
    · simp only [Option.some.injEq] at h
      exact absurd h hgs
    · simp only [Option.some.injEq] at h
      rw [h]
      exact hmem
  · have hm : (billingAndShipping la lb).entryGroups "order.created" (some ["billing"])
        false = [("billing", [⟨"A", orderBilling, la⟩])] := by
      cases la <;> cases lb <;> rfl
    have hr : rt.rangeOrder [("billing", [(⟨"A", orderBilling, la⟩ : EventEntry)])] =
        [("billing", [⟨"A", orderBilling, la⟩])] :=
      List.perm_singleton.mp (rt.rangeOrder_perm _)
    unfold EventCatalog.Next
    rw [hm, hr]
    cases la <;> rfl

/-- C9 at the filter ["billing"], with billing on node A and shipping on node B,
both remote. -/
theorem C9_group_filtering_witness :
    (["billing"] : List String) ≠ [] ∧
      (billingAndShipping false false).Next insertionOrder "order.created" firstCandidate ()
        (some ["billing"]) false = .ok [⟨"A", orderBilling, false⟩] ∧
      ∀ x ∈ [(⟨"A", orderBilling, false⟩ : EventEntry)], x.event.group ∈ ["billing"] :=
  ⟨by decide, by rfl,
    (C9_group_filtering (billingAndShipping false false) insertionOrder "order.created"
      firstCandidate () false false false).2.1 ["billing"] [⟨"A", orderBilling, false⟩]
      (by decide) (by rfl)⟩

/-- C10. `Next` with `localOnly` returns, and every entry of its result is local;
when every entry registered under the name is remote, `Next(name, stg, nil, true)`
returns the empty result. -/
theorem C10_local_only_filtering {σ : Type} (c : EventCatalog) (rt : GoRuntime)
    (name : String) (stg : Strategy σ) (s : σ) (groups : Option (List String)) :
    (∃ r, c.Next rt name stg s groups true = .ok r ∧ ∀ x ∈ r, x.isLocal = true) ∧
      ((∀ e ∈ mapIndex c.events name, e.isLocal = false) →
        c.Next rt name stg s none true = .ok []) := by
  constructor
  · have hdirect : ∀ g,
        (findLocal (mapIndex (c.entryGroups name groups true) g)).isSome = true ∨
        (mapIndex (c.entryGroups name groups true) g).length ≤ 1 := by
      intro g
      cases hb : mapIndex (c.entryGroups name groups true) g with
      | nil => right; simp
      | cons x rest =>
        left
        have hx : x ∈ mapIndex (c.entryGroups name groups true) g := by
          rw [hb]
          exact List.mem_cons_self _ _
        have hs := (mem_bucket c name groups true g x hx).2.1
        exact findLocal_isSome_of_mem _ x (List.mem_cons_self _ _)
          (isLocal_of_survives_localOnly groups x hs)
    have hok := Next_direct c rt name stg s groups true hdirect
    refine ⟨_, hok, ?_⟩
    intro x hx
    exact isLocal_of_survives_localOnly groups x
      (Next_ok_survives c rt name stg s groups true _ x hok hx).2
  · intro hall
    have hm : c.entryGroups name none true = [] := by
      apply groupLoop_of_none_survive
      intro e he
      simp [survives, hall e he]
    have hr : rt.rangeOrder [] = [] := List.perm_nil.mp (rt.rangeOrder_perm _)
    unfold EventCatalog.Next
    rw [hm, hr]
    rfl

/-- C10 at shipping registered on nodes B and C, both remote. -/
theorem C10_local_only_filtering_witness :
    (∀ e ∈ mapIndex remotePair.events "order.created", e.isLocal = false) ∧
      remotePair.Next reverseOrder "order.created" roundRobin 0 none true = .ok [] :=
  ⟨by decide,
    (C10_local_only_filtering remotePair reverseOrder "order.created" roundRobin 0
      none).2 (by decide)⟩

/-! ## Buckets that get no selection, and empty results -/

theorem directPick_of_remote_pair (entries : List EventEntry) (hlen : 2 ≤ entries.length)
    (hremote : ∀ e ∈ entries, e.isLocal = false) : directPick entries = none := by
  have h1 : ¬ entries.length = 1 := by omega
  simp [directPick, (findLocal_eq_none_iff entries).mpr hremote, h1]

/-- When `Next` returns, a group whose bucket has two or more entries, all remote,
has no entry in the result. -/
theorem Next_ok_no_selection {σ : Type} (c : EventCatalog) (rt : GoRuntime) (name : String)
    (stg : Strategy σ) (s : σ) (groups : Option (List String)) (localOnly : Bool)
    (r : List EventEntry) (g : String)
    (h : c.Next rt name stg s groups localOnly = .ok r)
    (hlen : 2 ≤ (c.bucket name groups localOnly g).length)
    (hremote : ∀ e ∈ c.bucket name groups localOnly g, e.isLocal = false) :
    r.filter (fun y => decide (y.event.group = g)) = [] := by
  rw [Next_ok_group c rt name stg s groups localOnly r g h]
  have hd : directPick (mapIndex (c.entryGroups name groups localOnly) g) = none :=
    directPick_of_remote_pair _ hlen hremote
  rw [hd]
  rfl

theorem Next_of_entryGroups_nil {σ : Type} (c : EventCatalog) (rt : GoRuntime)
    (name : String) (stg : Strategy σ) (s : σ) (groups : Option (List String))
    (localOnly : Bool) (h : c.entryGroups name groups localOnly = []) :
    c.Next rt name stg s groups localOnly = .ok [] := by
  have hr : rt.rangeOrder [] = [] := List.perm_nil.mp (rt.rangeOrder_perm _)
  unfold EventCatalog.Next
  rw [h, hr]
  rfl

theorem Next_of_no_entries {σ : Type} (c : EventCatalog) (rt : GoRuntime)
    (name : String) (stg : Strategy σ) (s : σ) (groups : Option (List String))
    (localOnly : Bool) (h : mapIndex c.events name = []) :
    c.Next rt name stg s groups localOnly = .ok [] := by
  apply Next_of_entryGroups_nil
  unfold EventCatalog.entryGroups
  rw [h]
  rfl

/-- C11. An empty strategy result for one bucket does not make `Next` return: with
billing remote on nodes D and A and shipping remote on nodes B and C, a strategy
that makes no selection when a candidate targets node C returns no selection for
the shipping bucket in every state, yet `Next` panics under every run time, at the
selection made for the billing bucket. -/
theorem C11_empty_selection_lost_to_panic (rt : GoRuntime) :
    remotePairs.bucket "order.created" none false "shipping" =
        [⟨"B", orderShipping, false⟩, ⟨"C", orderShipping, false⟩] ∧
      (∀ t, ((selectUnlessNode "C").Select t (candidates rt.loopVar
        (remotePairs.bucket "order.created" none false "shipping"))).1 = none) ∧
      remotePairs.Next rt "order.created" (selectUnlessNode "C") () none false =
        .error .interfaceConversion := by
  refine ⟨by decide, ?_, ?_⟩
  · intro t
    generalize rt.loopVar = lv
    cases lv <;> rfl
  · apply Next_panic remotePairs rt "order.created" (selectUnlessNode "C") () none false
      "billing" (by decide) (by decide)
    intro t
    generalize rt.loopVar = lv
    cases lv <;> rfl

/-- C12. `Next` on a name without entries returns the empty result, so it does for
a name that was never registered and for a name whose entries were all removed;
and `Next` with a non-empty group filter that holds the group of no entry
registered under the name returns the empty result. -/
theorem C12_no_candidate_empty_result {σ : Type} (c : EventCatalog) (rt : GoRuntime)
    (name : String) (stg : Strategy σ) (s : σ) (groups : Option (List String))
    (localOnly : Bool) :
    (mapIndex c.events name = [] → c.Next rt name stg s groups localOnly = .ok []) ∧
      (name ∉ mapKeys c.events → c.Next rt name stg s groups localOnly = .ok []) ∧
      (∀ n, (∀ e ∈ mapIndex c.events name, e.targetNodeID = n) →
        (c.Remove n name).Next rt name stg s groups localOnly = .ok []) ∧
      (∀ gs : List String, gs ≠ [] →
        (∀ e ∈ mapIndex c.events name, e.event.group ∉ gs) →
        c.Next rt name stg s (some gs) localOnly = .ok []) := by
  refine ⟨Next_of_no_entries c rt name stg s groups localOnly, ?_, ?_, ?_⟩
  · intro h
    exact Next_of_no_entries c rt name stg s groups localOnly
      (mapIndex_eq_nil_of_not_mem _ _ h)
  · intro n h
    apply Next_of_no_entries
    simp only [EventCatalog.Remove, mapIndex_mapAssign_same, removeLoop_eq_filter,
      List.nil_append, List.filter_eq_nil_iff]
    intro e he
    simp [h e he]
  · intro gs hgs h
    apply Next_of_entryGroups_nil
    apply groupLoop_of_none_survive
    intro e he
    have hm : matchGroup e.event (some gs) = false := by
      cases hmatch : matchGroup e.event (some gs) with
      | false => rfl
      | true =>
        rcases (matchGroup_iff e.event (some gs)).mp hmatch with h1 | h1 | ⟨gs', h1, hmem⟩
        · cases h1
        · simp only [Option.some.injEq] at h1
          exact absurd h1 hgs
        · simp only [Option.some.injEq] at h1
          rw [← h1] at hmem
          exact absurd hmem (h e he)
    simp [survives, hm]

/-- C12 at an empty catalog, at shipping removed again from node B, and at the
filter ["billing"] over the shipping entries of nodes B and C. -/
theorem C12_no_candidate_empty_result_witness :
    CreateEventCatalog.Next insertionOrder "order.created" firstCandidate () none false =
        .ok [] ∧
      ((CreateEventCatalog.Add "B" orderShipping false).Remove "B" "order.created").Next
        insertionOrder "order.created" firstCandidate () none false = .ok [] ∧
      remotePair.Next insertionOrder "order.created" firstCandidate () (some ["billing"])
        false = .ok [] :=
  ⟨(C12_no_candidate_empty_result CreateEventCatalog insertionOrder "order.created"
      firstCandidate () none false).1 rfl,
    (C12_no_candidate_empty_result (CreateEventCatalog.Add "B" orderShipping false)
      insertionOrder "order.created" firstCandidate () none false).2.2.1 "B" (by decide),
    (C12_no_candidate_empty_result remotePair insertionOrder "order.created"
      firstCandidate () none false).2.2.2 ["billing"] (by decide) (by decide)⟩

/-- C13. `Next` leaves the catalog as it was: the catalog after the call is the
catalog before it, with the same keys and the same sequence under every name, and
the outcome is that of `Next`. -/
theorem C13_next_read_only {σ : Type} (c : EventCatalog) (rt : GoRuntime) (name : String)
    (stg : Strategy σ) (s : σ) (groups : Option (List String)) (localOnly : Bool) :
    (c.NextStep rt name stg s groups localOnly).2 = c ∧
      mapKeys (c.NextStep rt name stg s groups localOnly).2.events = mapKeys c.events ∧
      (∀ key, mapIndex (c.NextStep rt name stg s groups localOnly).2.events key =
        mapIndex c.events key) ∧
      (c.NextStep rt name stg s groups localOnly).1 =
        c.Next rt name stg s groups localOnly :=
  ⟨rfl, rfl, fun _ => rfl, rfl⟩

/-! ## The registry key invariant -/

theorem mem_mapAssign (m : GoMap) (k : String) (v : List EventEntry)
    (p : String × List EventEntry) (hp : p ∈ mapAssign m k v) : p = (k, v) ∨ p ∈ m := by
  induction m with
  | nil =>
    simp only [mapAssign, List.mem_singleton] at hp
    exact Or.inl hp
  | cons q rest ih =>
    obtain ⟨k0, v0⟩ := q
    by_cases h : k0 = k
    · subst h
      simp only [mapAssign, if_true, List.mem_cons] at hp
      rcases hp with hp | hp
      · exact Or.inl hp
      · exact Or.inr (List.mem_cons_of_mem _ hp)
    · simp only [mapAssign, h, if_false, List.mem_cons] at hp
      rcases hp with hp | hp
      · exact Or.inr (by rw [hp]; exact List.mem_cons_self _ _)
      · rcases ih hp with h1 | h1
        · exact Or.inl h1
        · exact Or.inr (List.mem_cons_of_mem _ h1)

theorem mem_pair_of_mem_mapIndex (m : GoMap) (k : String) (e : EventEntry)
    (he : e ∈ mapIndex m k) : (k, mapIndex m k) ∈ m := by
  apply mem_of_mapIndex_ne_nil
  intro h
  rw [h] at he
  simp at he

theorem keyInvariant_iff (c : EventCatalog) :
    keyInvariant c = true ↔ ∀ p ∈ c.events, ∀ e ∈ p.2, e.event.name = p.1 := by
  simp [keyInvariant, List.all_eq_true]

theorem keyInvariant_apply (c : EventCatalog) (op : CatalogOp)
    (h : keyInvariant c = true) : keyInvariant (c.apply op) = true := by
  rw [keyInvariant_iff] at h ⊢
  cases op with
  | add nodeID event isLocal =>
    intro p hp e he
    rcases mem_mapAssign _ _ _ p hp with h1 | h1
    · subst h1
      rcases List.mem_append.mp he with h2 | h2
      · exact h _ (mem_pair_of_mem_mapIndex _ _ e h2) e h2
      · rw [List.mem_singleton.mp h2]
    · exact h p h1 e he
  | update nodeID name updates => exact h
  | remove nodeID name =>
    intro p hp e he
    rcases mem_mapAssign _ _ _ p hp with h1 | h1
    · subst h1
      have he' : e ∈ mapIndex c.events name := by
        rw [removeLoop_eq_filter] at he
        simp only [List.nil_append] at he
        exact (List.mem_filter.mp he).1
      exact h _ (mem_pair_of_mem_mapIndex _ _ e he') e he'
    · exact h p h1 e he

theorem keyInvariant_run (c : EventCatalog) (ops : List CatalogOp)
    (h : keyInvariant c = true) : keyInvariant (c.run ops) = true := by
  induction ops generalizing c with
  | nil => exact h
  | cons op rest ih => exact ih (c.apply op) (keyInvariant_apply c op h)

/-- C14. In every catalog state reached from `CreateEventCatalog` by a sequence of
`Add`, `Update` and `Remove` calls, every entry of every stored pair, and so every
entry read under a key `name`, has an event definition whose name is that key. -/
theorem C14_registry_key_invariant (ops : List CatalogOp) :
    keyInvariant (CreateEventCatalog.run ops) = true ∧
      (∀ p ∈ (CreateEventCatalog.run ops).events, ∀ e ∈ p.2, e.event.name = p.1) ∧
      (∀ name, ∀ e ∈ mapIndex (CreateEventCatalog.run ops).events name,
        e.event.name = name) := by
  have hinv : keyInvariant (CreateEventCatalog.run ops) = true :=
    keyInvariant_run CreateEventCatalog ops (by decide)
  refine ⟨hinv, (keyInvariant_iff _).mp hinv, ?_⟩
  intro name e he
  exact (keyInvariant_iff _).mp hinv _ (mem_pair_of_mem_mapIndex _ _ e he) e he

/-- C14 at the calls Add A billing, Add B shipping, Update, Remove A, Add C under
another name: the entry of B stored under "order.created" has that event name. -/
theorem C14_registry_key_invariant_witness :
    (⟨"B", orderShipping, false⟩ : EventEntry) ∈
        mapIndex (CreateEventCatalog.run
          [CatalogOp.add "A" orderBilling true, CatalogOp.add "B" orderShipping false,
            CatalogOp.update "B" "order.created" [("schema", "v2")],
            CatalogOp.remove "A" "order.created",
            CatalogOp.add "C" ⟨"user.created", "mail-service", "mail", 4⟩ false]).events
          "order.created" ∧
      (⟨"B", orderShipping, false⟩ : EventEntry).event.name = "order.created" :=
  ⟨by decide,
    (C14_registry_key_invariant
      [CatalogOp.add "A" orderBilling true, CatalogOp.add "B" orderShipping false,
        CatalogOp.update "B" "order.created" [("schema", "v2")],
        CatalogOp.remove "A" "order.created",
        CatalogOp.add "C" ⟨"user.created", "mail-service", "mail", 4⟩ false]).2.2
      "order.created" ⟨"B", orderShipping, false⟩ (by decide)⟩

/-! ## Local invocation -/

/-- The call of `emitLocalEvent` always returns normally: the deferred
`catchEventError` stops every panic. -/
theorem emitLocalEvent_returns (nilPanic : NilPanic) (handlers : Handlers)
    (eventEntry : EventEntry) (context : BrokerContext) :
    (emitLocalEvent nilPanic handlers eventEntry context).2 = .ok () := by
  unfold emitLocalEvent
  simp only
  split
  · rfl
  · rename_i v _
    simp only [catchEventError]
    cases recoverValue nilPanic v <;> rfl

/-- The log of a call whose handler panics: the line before the call, then the
error line if `recover` yields a value. -/
theorem emitLocalEvent_log_of_panic (nilPanic : NilPanic) (handlers : Handlers)
    (eventEntry : EventEntry) (context : BrokerContext) (v : PanicValue)
    (hctx : context.isContext = true)
    (hpanic : handlers eventEntry.event.handler context = .panicked v) :
    (emitLocalEvent nilPanic handlers eventEntry context).1 =
      LogLine.debug "Before invoking local event: " context.eventName ::
        (match recoverValue nilPanic v with
          | some err => [LogLine.error context.eventName err]
          | none => []) := by
  unfold emitLocalEvent
  simp only [hctx, if_true, hpanic, catchEventError]
  cases recoverValue nilPanic v <;> rfl

/-- C15, as stated, fails: under a language version before 1.21 a handler that
calls `panic(nil)` makes `emitLocalEvent` return normally with the line logged before
the call as its only log line, so the failure is not logged. -/
theorem C15_fail_open_counterexample :
    exampleHandlers orderAudit.handler orderContext = .panicked .nilValue ∧
      emitLocalEvent .recoveredAsNil exampleHandlers ⟨"A", orderAudit, true⟩ orderContext =
        ([LogLine.debug "Before invoking local event: " "order.created"], .ok ()) :=
  ⟨by rfl, by rfl⟩

/-- C15, amended. If the handler of an entry panics when `emitLocalEvent` calls it,
`emitLocalEvent` returns normally; the failure is logged with the event name and
the value that `recover` yields whenever it yields one, which it does for every
panic with a value other than nil and, from language version 1.21 on, for every
panic. -/
theorem C15_fail_open_when_recovered (nilPanic : NilPanic) (handlers : Handlers)
    (eventEntry : EventEntry) (context : BrokerContext) (v : PanicValue)
    (hctx : context.isContext = true)
    (hpanic : handlers eventEntry.event.handler context = .panicked v) :
    (emitLocalEvent nilPanic handlers eventEntry context).2 = .ok () ∧
      (∀ err, recoverValue nilPanic v = some err →
        LogLine.error context.eventName err ∈
          (emitLocalEvent nilPanic handlers eventEntry context).1) ∧
      (∀ detail, v = .value detail →
        LogLine.error context.eventName detail ∈
          (emitLocalEvent nilPanic handlers eventEntry context).1) ∧
      (nilPanic = .panicNilError →
        ∃ err, LogLine.error context.eventName err ∈
          (emitLocalEvent nilPanic handlers eventEntry context).1) := by
  have hlog := emitLocalEvent_log_of_panic nilPanic handlers eventEntry context v hctx hpanic
  have hrec : ∀ err, recoverValue nilPanic v = some err →
      LogLine.error context.eventName err ∈
        (emitLocalEvent nilPanic handlers eventEntry context).1 := by
    intro err herr
    rw [hlog, herr]
    simp
  refine ⟨emitLocalEvent_returns nilPanic handlers eventEntry context, hrec, ?_, ?_⟩
  · intro detail hv
    subst hv
    exact hrec detail rfl
  · intro hnp
    subst hnp
    cases v with
    | nilValue => exact ⟨_, hrec _ rfl⟩
    | value detail => exact ⟨detail, hrec detail rfl⟩

/-- C15, amended, at a handler that panics with the value "shipping failed". -/
theorem C15_fail_open_when_recovered_witness :
    orderContext.isContext = true ∧
      exampleHandlers orderShipping.handler orderContext =
        .panicked (.value "shipping failed") ∧
      (emitLocalEvent .recoveredAsNil exampleHandlers ⟨"B", orderShipping, true⟩
        orderContext).2 = .ok () ∧
      LogLine.error "order.created" "shipping failed" ∈
        (emitLocalEvent .recoveredAsNil exampleHandlers ⟨"B", orderShipping, true⟩
          orderContext).1 :=
  ⟨rfl, rfl,
    (C15_fail_open_when_recovered .recoveredAsNil exampleHandlers
      ⟨"B", orderShipping, true⟩ orderContext (.value "shipping failed") rfl rfl).1,
    (C15_fail_open_when_recovered .recoveredAsNil exampleHandlers
      ⟨"B", orderShipping, true⟩ orderContext (.value "shipping failed") rfl rfl).2.2.1
      "shipping failed" rfl⟩

/-! ## `Update` and the mutex -/

/-- C16. `Update` is a no-op: the catalog after it is the catalog before it, with
the same sequence under every name. -/
theorem C16_update_no_op (c : EventCatalog) (nodeID name : String)
    (updates : List (String × String)) :
    c.Update nodeID name updates = c ∧
      (c.Update nodeID name updates).events = c.events ∧
      ∀ key, mapIndex (c.Update nodeID name updates).events key = mapIndex c.events key :=
  ⟨rfl, rfl, fun _ => rfl⟩

/-- No method changes the mutex state: every access is made in the state the
mutex had on entry. -/
theorem accesses_in_entry_state (held : Bool) (event : Event) (name : String) :
    (∀ a ∈ runSync held (AddSteps event), a.mutexHeld = held) ∧
      (∀ a ∈ runSync held (RemoveSteps name), a.mutexHeld = held) ∧
      (∀ a ∈ runSync held (NextSteps name), a.mutexHeld = held) ∧
      runSync held UpdateSteps = [] := by
  simp [runSync, AddSteps, RemoveSteps, NextSteps, UpdateSteps]

/-- C17. The lock discipline fails on the code: on a catalog as returned by
`CreateEventCatalog`, whose mutex is unlocked, `Add` reads and writes `events[name]`,
`Remove` reads and writes it and `Next` reads it, each with the mutex not held; no
method body locks the mutex. -/
theorem C17_map_accessed_without_mutex (event : Event) (name : String) :
    runSync createdMutexHeld (AddSteps event) =
        [⟨false, event.name, false⟩, ⟨true, event.name, false⟩] ∧
      runSync createdMutexHeld (RemoveSteps name) =
        [⟨false, name, false⟩, ⟨true, name, false⟩] ∧
      runSync createdMutexHeld (NextSteps name) = [⟨false, name, false⟩] ∧
      allGuarded (runSync createdMutexHeld (AddSteps event)) = false ∧
      allGuarded (runSync createdMutexHeld (RemoveSteps name)) = false ∧
      allGuarded (runSync createdMutexHeld (NextSteps name)) = false :=
  ⟨rfl, rfl, rfl, rfl, rfl, rfl⟩

/-! ## The candidate list handed to the strategy -/

/-- With one variable per loop, every candidate stands for the last entry of the
bucket. -/
theorem candidates_perLoop_denotes (entries : List EventEntry) (sel : Selector)
    (h : sel ∈ candidates .perLoop entries) : sel.denotes = entries.getLast? := by
  simp only [candidates] at h
  cases hl : entries.getLast? with
  | none => rw [hl] at h; simp at h
  | some last =>
    rw [hl] at h
    simp only [List.mem_map] at h
    obtain ⟨_, _, hsel⟩ := h
    rw [← hsel]
    rfl

theorem candidatesFrom_denotes (entries : List EventEntry) (index : Nat) :
    (candidatesFrom index entries).map Selector.denotes = entries.map some := by
  induction entries generalizing index with
  | nil => rfl
  | cons e rest ih => simp [candidatesFrom, Selector.denotes, ih]

/-- With one variable per iteration, the candidates stand for the entries of the
bucket, in order. -/
theorem candidates_perIteration_denotes (entries : List EventEntry) :
    (candidates .perIteration entries).map Selector.denotes = entries.map some :=
  candidatesFrom_denotes entries 0

/-- C18. The full candidate set does not reach the strategy under one variable per
loop: for the shipping bucket with the remote entries of nodes B and C, in that
order, the list handed to `Select` has two candidates that address the same
variable and both stand for the entry of C; none stands for the entry of B. -/
theorem C18_candidates_alias_last_entry :
    remotePair.bucket "order.created" none false "shipping" =
        [⟨"B", orderShipping, false⟩, ⟨"C", orderShipping, false⟩] ∧
      insertionOrder.loopVar = LoopVar.perLoop ∧
      nextLoop insertionOrder.loopVar recorder
          (insertionOrder.rangeOrder (remotePair.entryGroups "order.created" none false))
          [] [] =
        .ok ([], [[Selector.entryPointer 0 ⟨"C", orderShipping, false⟩,
          Selector.entryPointer 0 ⟨"C", orderShipping, false⟩]]) ∧
      (candidates insertionOrder.loopVar
          (remotePair.bucket "order.created" none false "shipping")).map Selector.denotes =
        [some ⟨"C", orderShipping, false⟩, some ⟨"C", orderShipping, false⟩] ∧
      (candidates insertionOrder.loopVar
          (remotePair.bucket "order.created" none false "shipping")).map
          Selector.TargetNodeID = ["C", "C"] :=
  ⟨by decide, rfl, by rfl, by decide, by decide⟩

/-! ## Soundness of the result, and `localOnly` -/

/-- C19. Every entry of a result of `Next` is an entry stored under the name that
passes the `localOnly` filter and the group filter. -/
theorem C19_result_soundness {σ : Type} (c : EventCatalog) (rt : GoRuntime) (name : String)
    (stg : Strategy σ) (s : σ) (groups : Option (List String)) (localOnly : Bool)
    (r : List EventEntry) (x : EventEntry)
    (h : c.Next rt name stg s groups localOnly = .ok r) (hx : x ∈ r) :
    x ∈ mapIndex c.events name ∧ (localOnly = true → x.isLocal = true) ∧
      matchGroup x.event groups = true := by
  have hs := Next_ok_survives c rt name stg s groups localOnly r x h hx
  refine ⟨hs.1, ?_, ?_⟩
  · intro hl
    subst hl
    exact isLocal_of_survives_localOnly groups x hs.2
  · have h2 := hs.2
    simp only [survives, Bool.and_eq_true] at h2
    exact h2.2

/-- C19 at billing local on node A and shipping remote on nodes B and C, with a
strategy that never selects and the filter ["billing", "shipping"]. -/
theorem C19_result_soundness_witness :
    localAndRemotePair.Next reverseOrder "order.created" noSelection ()
        (some ["billing", "shipping"]) false = .ok [⟨"A", orderBilling, true⟩] ∧
      (⟨"A", orderBilling, true⟩ : EventEntry) ∈
        mapIndex localAndRemotePair.events "order.created" ∧
      matchGroup orderBilling (some ["billing", "shipping"]) = true :=
  ⟨by rfl,
    (C19_result_soundness localAndRemotePair reverseOrder "order.created" noSelection ()
      (some ["billing", "shipping"]) false [⟨"A", orderBilling, true⟩]
      ⟨"A", orderBilling, true⟩ (by rfl) (by decide)).1,
    (C19_result_soundness localAndRemotePair reverseOrder "order.created" noSelection ()
      (some ["billing", "shipping"]) false [⟨"A", orderBilling, true⟩]
      ⟨"A", orderBilling, true⟩ (by rfl) (by decide)).2.2⟩

theorem localOnly_bucket_direct (c : EventCatalog) (name : String)
    (groups : Option (List String)) (g : String) :
    ((findLocal (c.bucket name groups true g)).isSome = true ∨
        (c.bucket name groups true g).length ≤ 1) ∧
      directPick (c.bucket name groups true g) = findLocal (c.bucket name groups true g) := by
  cases hb : c.bucket name groups true g with
  | nil => exact ⟨Or.inr (by simp), rfl⟩
  | cons x rest =>
    have hx : x ∈ mapIndex (c.entryGroups name groups true) g := by
      show x ∈ c.bucket name groups true g
      rw [hb]
      exact List.mem_cons_self _ _
    have hl := isLocal_of_survives_localOnly groups x (mem_bucket c name groups true g x hx).2.1
    have hsome := findLocal_isSome_of_mem (x :: rest) x (List.mem_cons_self _ _) hl
    refine ⟨Or.inl hsome, ?_⟩
    cases hf : findLocal (x :: rest) with
    | none => rw [hf] at hsome; cases hsome
    | some y => simp [directPick, hf]

/-- C20. With `localOnly` the strategy is irrelevant: under one run time two calls
of `Next` with any two strategies in any states return the same list, which holds
for every group the first local entry of its bucket and nothing else, and the loop
leaves the strategy state as it was; under two run times the two results hold the
same entries, as permutations of each other. -/
theorem C20_local_only_strategy_irrelevant {σ₁ σ₂ : Type} (c : EventCatalog)
    (rt rt' : GoRuntime) (name : String) (stg₁ : Strategy σ₁) (s₁ : σ₁)
    (stg₂ : Strategy σ₂) (s₂ : σ₂) (groups : Option (List String)) :
    ∃ r r', c.Next rt name stg₁ s₁ groups true = .ok r ∧
      c.Next rt name stg₂ s₂ groups true = .ok r ∧
      c.Next rt' name stg₂ s₂ groups true = .ok r' ∧
      r.Perm r' ∧
      (∀ g, r.filter (fun x => decide (x.event.group = g)) =
        (findLocal (c.bucket name groups true g)).toList) ∧
      nextLoop rt.loopVar stg₁ (rt.rangeOrder (c.entryGroups name groups true)) s₁ [] =
        .ok (r, s₁) := by
  have hdirect : ∀ g,
      (findLocal (mapIndex (c.entryGroups name groups true) g)).isSome = true ∨
      (mapIndex (c.entryGroups name groups true) g).length ≤ 1 :=
    fun g => (localOnly_bucket_direct c name groups g).1
  have h1 := Next_direct c rt name stg₁ s₁ groups true hdirect
  have h2 := Next_direct c rt name stg₂ s₂ groups true hdirect
  have h3 := Next_direct c rt' name stg₂ s₂ groups true hdirect
  refine ⟨_, _, h1, h2, h3, ?_, ?_, ?_⟩
  · exact ((rt.rangeOrder_perm _).filterMap _).trans
      ((rt'.rangeOrder_perm _).filterMap _).symm
  · intro g
    rw [Next_ok_group c rt name stg₁ s₁ groups true _ g h1]
    exact congrArg Option.toList (localOnly_bucket_direct c name groups g).2
  · have := nextLoop_direct rt.loopVar stg₁
      (rt.rangeOrder (c.entryGroups name groups true)) s₁ [] (by
        intro b hb
        rw [visited_bucket c rt name groups true b hb]
        exact hdirect b.1)
    simpa using this

end Registry
